import Mathlib

set_option linter.unusedVariables false

/-!
# Formal model of the Keccak/SHA-3 circuit gadget

This file embeds the Keccak hash-gadget source (state codec, round
primitives, permutation driver, padding schemes, sponge, hash facade) into
Lean 4 and proves the specification claims about it.

Circuit values are modelled as a pair of a concrete numeric value (the
value the prover would see) and the list of constraint-system variable
identifiers the value mentions.  Circuit construction is a state monad over
a builder state that records the next fresh variable id, the list of
variable ids that were declared as witnesses (via existsOne / exists), and
the list of emitted constraints, each recorded as the list of variable ids
it touches.  Failure (the `assert` helper and thrown configuration errors)
is modelled with `Except String`; an error carries the builder state at the
moment of the throw, so "fails before any constraint is built" is a
statement about that state.

External collaborators (the field abstraction, the bitwise gadget library,
the witness primitives) are not part of the excerpt; they are modelled from
the spec as documented on each definition.
-/

namespace KeccakGadget

/-- Modelled from the spec: order of the native field of the proof system
(the Pasta curves' base field used by the field abstraction). -/
def FIELD_P : Nat := 28948022309329048855892746252171976963363056481941560715954676764349967630337

/-- Length of the square matrix side of Keccak states. -/
def KECCAK_DIM : Nat := 5

/-- Value `l` in Keccak, determines the lane width. -/
def KECCAK_ELL : Nat := 6

/-- Width of a lane of the state in bits (64). -/
def KECCAK_WORD : Nat := 2 ^ KECCAK_ELL

/-- Number of bytes that fit in a word (8). -/
def BYTES_PER_WORD : Nat := KECCAK_WORD / 8

/-- Length of the state in bits (1600). -/
def KECCAK_STATE_LENGTH : Nat := KECCAK_DIM ^ 2 * KECCAK_WORD

/-- Number of rounds of the Keccak permutation function (24). -/
def KECCAK_ROUNDS : Nat := 12 + 2 * KECCAK_ELL

/-- The 5x5 table of per-lane left-rotation offsets, indexed [x][y]. -/
def ROT_TABLE : List (List Nat) :=
  [[0, 36, 3, 41, 18],
   [1, 44, 10, 45, 2],
   [62, 6, 43, 15, 61],
   [28, 55, 25, 21, 56],
   [27, 20, 39, 8, 14]]

/-- The 24 round constants of the Keccak permutation. -/
def ROUND_CONSTANTS : List Nat :=
  [0x0000000000000001,
   0x0000000000008082,
   0x800000000000808a,
   0x8000000080008000,
   0x000000000000808b,
   0x0000000080000001,
   0x8000000080008081,
   0x8000000000008009,
   0x000000000000008a,
   0x0000000000000088,
   0x0000000080008009,
   0x000000008000000a,
   0x000000008000808b,
   0x800000000000008b,
   0x8000000000008089,
   0x8000000000008003,
   0x8000000000008002,
   0x8000000000000080,
   0x000000000000800a,
   0x800000008000000a,
   0x8000000080008081,
   0x8000000000008080,
   0x0000000080000001,
   0x8000000080008008]

/-- All-ones 64-bit mask. -/
def MASK64 : Nat := 2 ^ 64 - 1

/-- A circuit value: the concrete numeric value it takes for the prover,
together with the constraint-variable ids it mentions.  A constant mentions
no variable; a freshly created variable mentions exactly its own id; a
linear combination mentions the ids of its summands. -/
structure CV where
  val : Nat
  vars : List Nat
deriving DecidableEq, Repr

/-- Builder state of circuit construction: next fresh variable id, the
variable ids declared as witnesses so far (most recent first), and the
emitted constraints, each as the list of variable ids it touches (most
recent first). -/
structure BState where
  nextVar : Nat
  witnessed : List Nat
  constraints : List (List Nat)
deriving DecidableEq, Repr

/-- The empty builder state. -/
def cleanBS : BState := ⟨0, [], []⟩

/-- The circuit-construction monad: state passing over `BState`, with
configuration errors modelled as `Except.error`.  An error result still
carries the builder state at the moment of the throw. -/
def M (α : Type) : Type := BState → Except String α × BState

instance : Monad M where
  pure a := fun st => (.ok a, st)
  bind m f := fun st =>
    match m st with
    | (.ok a, st') => f a st'
    | (.error e, st') => (.error e, st')

/-- Sequential monadic map over a list (models a JS loop building an array). -/
def mapML (f : α → M β) : List α → M (List β)
  | [] => pure []
  | x :: xs => do
    let y ← f x
    let ys ← mapML f xs
    pure (y :: ys)

/-- Sequential monadic left fold over a list (models a JS loop with an accumulator). -/
def foldlML (f : β → α → M β) (init : β) : List α → M β
  | [] => pure init
  | x :: xs => do
    let y ← f init x
    foldlML f y xs

/-- Sequential monadic iteration over a list (models a JS loop run for effects). -/
def forML (f : α → M Unit) : List α → M Unit
  | [] => pure ()
  | x :: xs => do
    f x
    forML f xs

/-- Modelled from the spec: the `assert` helper of the error module — checks
a condition eagerly during circuit construction and aborts with a
descriptive message when it fails.  No constraint is emitted. -/
def massert (p : Prop) [Decidable p] (msg : String) : M Unit :=
  fun st => (if p then .ok () else .error msg, st)

/-- Modelled from the spec: a thrown configuration error (`throw new Error`). -/
def merror (msg : String) : M α :=
  fun st => (.error msg, st)

/-- Field addition of the external field abstraction (mod `FIELD_P`). -/
def addP (a b : Nat) : Nat := (a + b) % FIELD_P

/-- Field multiplication of the external field abstraction (mod `FIELD_P`). -/
def mulP (a b : Nat) : Nat := (a * b) % FIELD_P

/-- Modelled from the spec: `Field.from` — a constant circuit value. -/
def fieldFrom (c : Nat) : CV := ⟨c % FIELD_P, []⟩

/-- Modelled from the spec: `Field.add` — a linear combination mentioning the
variables of both summands. -/
def fadd (a b : CV) : CV := ⟨addP a.val b.val, a.vars ++ b.vars⟩

/-- Modelled from the spec: `Field.mul` — mentions the variables of both factors. -/
def fmul (a b : CV) : CV := ⟨mulP a.val b.val, a.vars ++ b.vars⟩

/-- Modelled from the spec: `assertEquals` — emits an equality constraint
touching every variable mentioned by either side.  Whether the constraint is
satisfied is a proving-time question (a deferred ConstraintViolation), so
construction always continues. -/
def assertEquals (a b : CV) : M Unit :=
  fun st => (.ok (), { st with constraints := (a.vars ++ b.vars) :: st.constraints })

/-- Modelled from the spec: `existsOne` of the witness primitives — declares
one witness variable whose concrete value is computed out-of-band; the
argument is the value the prover-side callback returns.  The new variable is
recorded as witnessed and is not yet constrained. -/
def existsOne (v : Nat) : M CV :=
  fun st =>
    (.ok ⟨v, [st.nextVar]⟩,
     { st with nextVar := st.nextVar + 1, witnessed := st.nextVar :: st.witnessed })

/-- Modelled from the spec: `exists n` of the witness primitives — declares
one witness variable per entry of the value list the out-of-band callback
returns. -/
def existsMany (vs : List Nat) : M (List CV) :=
  mapML existsOne vs

/-- 64-bit left rotation on plain numbers. -/
def rotl64 (x n : Nat) : Nat :=
  ((x <<< n) % 2 ^ 64) ||| (x >>> (64 - n))

namespace Gadgets

/-- Modelled from the spec: the XOR gadget of the external bitwise gadget
library, parameterized by bit width.  It creates a fresh output variable and
constrains it against both inputs (the gadget's internal constraints range
check and link all three). -/
def xor (a b : CV) (w : Nat) : M CV :=
  fun st =>
    (.ok ⟨a.val ^^^ b.val, [st.nextVar]⟩,
     { st with nextVar := st.nextVar + 1,
               constraints := (a.vars ++ b.vars ++ [st.nextVar]) :: st.constraints })

/-- Modelled from the spec: the AND gadget of the external bitwise gadget
library, parameterized by bit width. -/
def and (a b : CV) (w : Nat) : M CV :=
  fun st =>
    (.ok ⟨a.val &&& b.val, [st.nextVar]⟩,
     { st with nextVar := st.nextVar + 1,
               constraints := (a.vars ++ b.vars ++ [st.nextVar]) :: st.constraints })

/-- Modelled from the spec: the bitwise-NOT gadget in its unchecked-width
variant — computed as the linear expression `allOnes - x`, so it emits no
constraint and its result mentions the same variables as its input.  On a
`w`-bit operand this equals the bitwise complement. -/
def not (a : CV) (w : Nat) (checked : Bool) : CV :=
  ⟨(2 ^ w - 1) ^^^ a.val, a.vars⟩

/-- Modelled from the spec: the 64-bit left-rotation gadget of the external
bitwise gadget library.  It creates a fresh output variable constrained
against the input. -/
def rotate (a : CV) (n : Nat) : M CV :=
  fun st =>
    (.ok ⟨rotl64 a.val n, [st.nextVar]⟩,
     { st with nextVar := st.nextVar + 1,
               constraints := (a.vars ++ [st.nextVar]) :: st.constraints })

end Gadgets

/-- Modelled from the spec: the 8-bit range-check gadget — emits a
constraint on the variables of its input and returns nothing. -/
def rangeCheck8 (a : CV) : M Unit :=
  fun st => (.ok (), { st with constraints := a.vars :: st.constraints })

/-- A Keccak state: a 5x5 matrix of circuit lanes, indexed [x][y]. -/
abbrev KState := List (List CV)

/-- Read lane (x, y) of a state (zero constant out of range). -/
def sget (s : KState) (x y : Nat) : CV :=
  (s.getD x []).getD y (fieldFrom 0)

/-- Write lane (x, y) of a state. -/
def setCell (s : KState) (x y : Nat) (v : CV) : KState :=
  s.set x ((s.getD x []).set y v)

/-- Return a keccak state where all lanes are equal to 0. -/
def getKeccakStateZeros : KState :=
  (List.range KECCAK_DIM).map fun _ => (List.range KECCAK_DIM).map fun _ => fieldFrom 0

/-- Constrains that a word equals the weighted sum of its claimed bytes
(byte i times 256^i). -/
def checkBytesToWord (word : CV) (wordBytes : List CV) : M Unit :=
  let composition :=
    (wordBytes.enum.foldl (fun acc xi =>
      fadd acc (fmul xi.2 (fieldFrom (2 ^ (8 * xi.1))))) (fieldFrom 0))
  assertEquals word composition

/-- Converts a list of bytes to a matrix of field elements: lane (x, y) is
the weighted sum of the 8 bytes starting at index `8 * (5 * y + x)`.
Fails unless the input has exactly 200 bytes. -/
def getKeccakStateOfBytes (bytestring : List CV) : M KState := do
  massert (bytestring.length = 200) "improper bytestring length"
  pure ((List.range KECCAK_DIM).map fun x =>
    (List.range KECCAK_DIM).map fun y =>
      (List.range BYTES_PER_WORD).foldl (fun acc z =>
        fadd acc (fmul (fieldFrom (2 ^ (8 * z)))
          (bytestring.getD (BYTES_PER_WORD * (KECCAK_DIM * y + x) + z) (fieldFrom 0))))
        (fieldFrom 0))

/-- Converts a state to a list of 200 bytes: each byte is declared as a
witness whose prover-side value is the corresponding shifted-and-masked
slice of the lane's value, and afterwards every lane is constrained to be
the weighted recomposition of its 8 witnessed bytes. -/
def keccakStateToBytes (state : KState) : M (List CV) := do
  let bytestring ← mapML (fun idx =>
    existsOne (((sget state (idx / BYTES_PER_WORD % KECCAK_DIM)
        (idx / BYTES_PER_WORD / KECCAK_DIM)).val >>> (8 * (idx % BYTES_PER_WORD))) &&& 255))
    (List.range (KECCAK_STATE_LENGTH / 8))
  forML (fun y =>
    forML (fun x =>
      checkBytesToWord (sget state x y)
        ((bytestring.drop (BYTES_PER_WORD * (KECCAK_DIM * y + x))).take BYTES_PER_WORD))
      (List.range KECCAK_DIM))
    (List.range KECCAK_DIM)
  pure bytestring

/-- Lane-wise 64-bit XOR of two states (checks the 5x5 dimensions first). -/
def keccakStateXor (a b : KState) : M KState := do
  massert (a.length = KECCAK_DIM ∧ (a.getD 0 []).length = KECCAK_DIM)
    "Invalid input1 dimensions"
  massert (b.length = KECCAK_DIM ∧ (b.getD 0 []).length = KECCAK_DIM)
    "Invalid input2 dimensions"
  mapML (fun x =>
    mapML (fun y => Gadgets.xor (sget a x y) (sget b x y) 64) (List.range KECCAK_DIM))
    (List.range KECCAK_DIM)

/-- Computes the number of required extra bytes to pad a message of `length` bytes.
For a rate below 8 the source's floating-point arithmetic yields NaN (modulo
by a zero block size); the model's Nat arithmetic yields 0 instead, so it is
faithful only for rates of at least 8 — the theorems about the padding
helpers carry that bound. -/
def bytesToPad (rate length : Nat) : Nat :=
  rate / 8 - length % (rate / 8)

/-- NIST padding: append `bytesToPad` bytes, the first set to 0x06 and the
last increased by 0x80 (collapsing to 0x86 for a single pad byte).  For a
rate below 8 the source throws a RangeError allocating an array of NaN
length; the model returns the message unchanged there, a case no theorem
below relies on. -/
def padNist (message : List CV) (rate : Nat) : List CV :=
  let extraBytes := bytesToPad rate message.length
  let pad0 := List.replicate extraBytes (fieldFrom 0)
  let pad1 := pad0.set 0 (fieldFrom 6)
  let pad2 := pad1.set (extraBytes - 1)
    (fadd (pad1.getD (extraBytes - 1) (fieldFrom 0)) (fieldFrom (2 ^ 7)))
  message ++ pad2

/-- Legacy 10*1 padding: append `bytesToPad` bytes, the first set to 0x01 and
the last increased by 0x80 (collapsing to 0x81 for a single pad byte).  The
rate-below-8 RangeError of the source is collapsed exactly as in `padNist`. -/
def pad101 (message : List CV) (rate : Nat) : List CV :=
  let extraBytes := bytesToPad rate message.length
  let pad0 := List.replicate extraBytes (fieldFrom 0)
  let pad1 := pad0.set 0 (fieldFrom 1)
  let pad2 := pad1.set (extraBytes - 1)
    (fadd (pad1.getD (extraBytes - 1) (fieldFrom 0)) (fieldFrom (2 ^ 7)))
  message ++ pad2

/-- theta: C[x] is the XOR of column x, D[x] = C[x-1] xor rot(C[x+1], 1),
E[x,y] = A[x,y] xor D[x]. -/
def theta (state : KState) : M KState := do
  let stateC ← mapML (fun x =>
    foldlML (fun acc y => Gadgets.xor acc (sget state x (y + 1)) KECCAK_WORD)
      (sget state x 0) (List.range (KECCAK_DIM - 1)))
    (List.range KECCAK_DIM)
  let stateD ← mapML (fun x => do
    let r ← Gadgets.rotate (stateC.getD ((x + 1) % KECCAK_DIM) (fieldFrom 0)) 1
    Gadgets.xor (stateC.getD ((x + KECCAK_DIM - 1) % KECCAK_DIM) (fieldFrom 0)) r KECCAK_WORD)
    (List.range KECCAK_DIM)
  mapML (fun x =>
    mapML (fun y => Gadgets.xor (sget state x y) (stateD.getD x (fieldFrom 0)) KECCAK_WORD)
      (List.range KECCAK_DIM))
    (List.range KECCAK_DIM)

/-- Fused rho/pi: B[y, (2x+3y) mod 5] = rot(E[x,y], ROT_TABLE[x][y]), written
into a fresh zeroed state. -/
def piRho (state : KState) : M KState := do
  foldlML (fun stB x =>
    foldlML (fun stB2 y => do
      let r ← Gadgets.rotate (sget state x y) ((ROT_TABLE.getD x []).getD y 0)
      pure (setCell stB2 y ((2 * x + 3 * y) % KECCAK_DIM) r))
      stB (List.range KECCAK_DIM))
    getKeccakStateZeros (List.range KECCAK_DIM)

/-- chi: F[x,y] = B[x,y] xor ((not B[x+1,y]) and B[x+2,y]), with the NOT in its
unchecked variant because the operand is the output of a previous 64-bit XOR. -/
def chi (state : KState) : M KState := do
  foldlML (fun stF x =>
    foldlML (fun stF2 y => do
      let a ← Gadgets.and
        (Gadgets.not (sget state ((x + 1) % KECCAK_DIM) y) KECCAK_WORD false)
        (sget state ((x + 2) % KECCAK_DIM) y) KECCAK_WORD
      let r ← Gadgets.xor (sget state x y) a KECCAK_WORD
      pure (setCell stF2 x y r))
      stF (List.range KECCAK_DIM))
    getKeccakStateZeros (List.range KECCAK_DIM)

/-- iota: XOR lane (0,0) with the round constant. -/
def iota (state : KState) (rc : CV) : M KState := do
  let g ← Gadgets.xor (sget state 0 0) rc KECCAK_WORD
  pure (setCell state 0 0 g)

/-- One round of the Keccak permutation: theta, then fused rho/pi, then chi,
then iota with the round's constant. -/
def round (state : KState) (rc : CV) : M KState := do
  let stateE ← theta state
  let stateB ← piRho stateE
  let stateF ← chi stateB
  iota stateF rc

/-- The permutation driver: left-fold the state through `round`, one round
per entry of the round-constant list. -/
def permutation (state : KState) (rc : List CV) : M KState :=
  foldlML (fun currentState rcValue => round currentState rcValue) state rc

/-- Split a list into consecutive blocks of `k` elements (the absorb loop's
slicing).  For `k = 0` the source loop would not terminate; the model
returns `[]`, a case every caller excludes. -/
def splitBlocks (k : Nat) : List α → List (List α)
  | [] => []
  | x :: xs =>
    if h : k = 0 then []
    else (x :: xs).take k :: splitBlocks k ((x :: xs).drop k)
termination_by l => l.length
decreasing_by
  simp [List.length_drop]
  omega

/-- Absorb: starting from the zero state, for each rate-sized block of the
padded message, zero-extend it with `capacity/8` zero bytes to 200 bytes,
convert to a state, XOR into the running state, and permute. -/
def absorb (paddedMessage : List CV) (capacity rate : Nat) (rc : List CV) : M KState := do
  let zeros := List.replicate (capacity / 8) (fieldFrom 0)
  foldlML (fun state block => do
    let paddedBlock := block ++ zeros
    massert (paddedBlock.length * 8 = KECCAK_STATE_LENGTH) "improper Keccak block length"
    let blockState ← getKeccakStateOfBytes paddedBlock
    let stateXor ← keccakStateXor state blockState
    permutation stateXor rc)
    getKeccakStateZeros (splitBlocks (rate / 8) paddedMessage)

/-- Overwrite `len` entries of `outputArray` starting at `start` with the
first `len` entries of `bytestring`. -/
def copyList (bytestring outputArray : List CV) (start len : Nat) : List CV :=
  (List.range len).foldl (fun arr i => arr.set (start + i) (bytestring.getD i (fieldFrom 0)))
    outputArray

/-- Squeeze: extract the first `rate/8` bytes of the state as the first
chunk; for each further needed chunk, permute the running state once more
and extract another chunk; truncate the collected output to `length/8`
bytes.  Note the source extracts every later chunk from the unchanged
`state` argument rather than from the freshly permuted state; the model
reproduces that behavior faithfully. -/
def squeeze (state : KState) (length rate : Nat) (rc : List CV) : M (List CV) := do
  let bytesPerSqueeze := rate / 8
  let squeezes := length / rate + 1
  let outputLength := squeezes * bytesPerSqueeze
  let outputArray := List.replicate outputLength (fieldFrom 0)
  let bytestring ← keccakStateToBytes state
  let outputBytes := bytestring.take bytesPerSqueeze
  let outputArray1 := copyList outputBytes outputArray 0 bytesPerSqueeze
  let res ← foldlML (fun (acc : KState × List CV) i => do
    let newState2 ← permutation acc.1 rc
    let bytestringI ← keccakStateToBytes state
    let outputBytesI := bytestringI.take bytesPerSqueeze
    pure (newState2, copyList outputBytesI acc.2 (bytesPerSqueeze * (i + 1)) bytesPerSqueeze))
    (state, outputArray1) (List.range (squeezes - 1))
  pure (res.2.take (length / 8))

/-- The sponge: check the padded message fills whole rate-blocks, declare the
24 round constants as witnesses, absorb, and squeeze. -/
def sponge (paddedMessage : List CV) (length capacity rate : Nat) : M (List CV) := do
  massert ((paddedMessage.length * 8) % rate = 0) "Invalid padded message length"
  let rc ← existsMany ROUND_CONSTANTS
  let state ← absorb paddedMessage capacity rate rc
  squeeze state length rate rc

/-- Checks in the circuit that a list of values are at most 8 bits each. -/
def checkBytes (inputs : List CV) : M Unit :=
  forML rangeCheck8 inputs

/-- Input/output byte-order selector of the hash facade. -/
inductive Endian where
  | Big : Endian
  | Little : Endian
deriving DecidableEq, Repr

/-- The hash facade: validate capacity and output length, normalize the
input byte order, optionally range-check the input bytes, pad with the
selected scheme, run the sponge, range-check the output bytes, and apply
the requested output byte order. -/
def hash (inpEndian outEndian : Endian) (byteChecks : Bool) (message : List CV)
    (length capacity : Int) (nistVersion : Bool) : M (List CV) := do
  massert (0 < capacity) "capacity must be positive"
  massert (capacity < 1600) "capacity must be less than 1600"
  massert (0 < length) "length must be positive"
  massert (length % 8 = 0) "length must be a multiple of 8"
  let messageFormatted := match inpEndian with
    | .Big => message
    | .Little => message.reverse
  if byteChecks then checkBytes messageFormatted else pure ()
  let rate : Nat := KECCAK_STATE_LENGTH - capacity.toNat
  let padded := if nistVersion then padNist messageFormatted rate
    else pad101 messageFormatted rate
  let h ← sponge padded length.toNat capacity.toNat rate
  checkBytes h
  pure (match outEndian with
    | .Big => h
    | .Little => h.reverse)

/-- NIST SHA-3 for output lengths 224/256/384/512: capacity twice the output
length, NIST padding. -/
def nistSha3 (len : Nat) (message : List CV)
    (inpEndian : Endian := .Big) (outEndian : Endian := .Big)
    (byteChecks : Bool := false) : M (List CV) :=
  match len with
  | 224 => hash inpEndian outEndian byteChecks message 224 448 true
  | 256 => hash inpEndian outEndian byteChecks message 256 512 true
  | 384 => hash inpEndian outEndian byteChecks message 384 768 true
  | 512 => hash inpEndian outEndian byteChecks message 512 1024 true
  | _ => merror "Invalid length"

/-- Keccak with the parameters used in Ethereum: 256-bit output, capacity
512, legacy 10*1 padding. -/
def ethereum (inpEndian : Endian := .Big) (outEndian : Endian := .Big)
    (byteChecks : Bool := false) (message : List CV := []) : M (List CV) :=
  hash inpEndian outEndian byteChecks message 256 512 false

/-- Pre-NIST Keccak for output lengths 224/256/384/512: capacity twice the
output length, legacy 10*1 padding; the 256-bit case delegates to the
Ethereum instantiation. -/
def preNist (len : Nat) (message : List CV)
    (inpEndian : Endian := .Big) (outEndian : Endian := .Big)
    (byteChecks : Bool := false) : M (List CV) :=
  match len with
  | 224 => hash inpEndian outEndian byteChecks message 224 448 false
  | 256 => ethereum inpEndian outEndian byteChecks message
  | 384 => hash inpEndian outEndian byteChecks message 384 768 false
  | 512 => hash inpEndian outEndian byteChecks message 512 1024 false
  | _ => merror "Invalid length"

/-! ## Pure value layer

The circuit-construction monad only threads variable ids and constraint
records; the concrete values it computes are a pure function of the input
values.  The following definitions compute those values directly, mirroring
each monadic definition; the correspondence lemmas below prove that the
monadic run realizes them. -/

/-- A Keccak state of plain lane values. -/
abbrev VState := List (List Nat)

/-- Value projection of a list of circuit values. -/
def bvals (l : List CV) : List Nat := l.map CV.val

/-- Value projection of a circuit state. -/
def vals (s : KState) : VState := s.map fun r => r.map CV.val

/-- Read lane (x, y) of a value state (zero out of range). -/
def vget (s : VState) (x y : Nat) : Nat :=
  (s.getD x []).getD y 0

/-- Write lane (x, y) of a value state. -/
def vset (s : VState) (x y : Nat) (v : Nat) : VState :=
  s.set x ((s.getD x []).set y v)

/-- The all-zero value state. -/
def zerosV : VState :=
  (List.range KECCAK_DIM).map fun _ => (List.range KECCAK_DIM).map fun _ => 0

/-- Value of `getKeccakStateOfBytes`. -/
def stateOfBytesV (b : List Nat) : VState :=
  (List.range KECCAK_DIM).map fun x =>
    (List.range KECCAK_DIM).map fun y =>
      (List.range BYTES_PER_WORD).foldl (fun acc z =>
        addP acc (mulP (2 ^ (8 * z) % FIELD_P)
          (b.getD (BYTES_PER_WORD * (KECCAK_DIM * y + x) + z) 0)))
        0

/-- Values witnessed by `keccakStateToBytes`: byte `idx` is the byte of lane
`(idx/8 mod 5, idx/8 div 5)` at offset `idx mod 8`. -/
def stateToBytesV (s : VState) : List Nat :=
  (List.range (KECCAK_STATE_LENGTH / 8)).map fun idx =>
    ((vget s (idx / BYTES_PER_WORD % KECCAK_DIM) (idx / BYTES_PER_WORD / KECCAK_DIM))
      >>> (8 * (idx % BYTES_PER_WORD))) &&& 255

/-- Value of `keccakStateXor`. -/
def stateXorV (a b : VState) : VState :=
  (List.range KECCAK_DIM).map fun x =>
    (List.range KECCAK_DIM).map fun y => vget a x y ^^^ vget b x y

/-- Value of `theta`. -/
def thetaV (s : VState) : VState :=
  let c := (List.range KECCAK_DIM).map fun x =>
    (List.range (KECCAK_DIM - 1)).foldl (fun acc y => acc ^^^ vget s x (y + 1)) (vget s x 0)
  let d := (List.range KECCAK_DIM).map fun x =>
    c.getD ((x + KECCAK_DIM - 1) % KECCAK_DIM) 0 ^^^ rotl64 (c.getD ((x + 1) % KECCAK_DIM) 0) 1
  (List.range KECCAK_DIM).map fun x =>
    (List.range KECCAK_DIM).map fun y => vget s x y ^^^ d.getD x 0

/-- Value of `piRho`. -/
def piRhoV (s : VState) : VState :=
  (List.range KECCAK_DIM).foldl (fun stB x =>
    (List.range KECCAK_DIM).foldl (fun stB2 y =>
      vset stB2 y ((2 * x + 3 * y) % KECCAK_DIM)
        (rotl64 (vget s x y) ((ROT_TABLE.getD x []).getD y 0)))
      stB)
    zerosV

/-- Value of `chi`. -/
def chiV (s : VState) : VState :=
  (List.range KECCAK_DIM).foldl (fun stF x =>
    (List.range KECCAK_DIM).foldl (fun stF2 y =>
      vset stF2 x y
        (vget s x y ^^^
          (((2 ^ KECCAK_WORD - 1) ^^^ vget s ((x + 1) % KECCAK_DIM) y) &&&
            vget s ((x + 2) % KECCAK_DIM) y)))
      stF)
    zerosV

/-- Value of `iota`. -/
def iotaV (s : VState) (rc : Nat) : VState :=
  vset s 0 0 (vget s 0 0 ^^^ rc)

/-- Value of `round`. -/
def roundV (s : VState) (rc : Nat) : VState :=
  iotaV (chiV (piRhoV (thetaV s))) rc

/-- Value of `permutation`. -/
def permutationV (s : VState) (rc : List Nat) : VState :=
  rc.foldl roundV s

/-- Value of `absorb`. -/
def absorbV (paddedMessage : List Nat) (capacity rate : Nat) (rc : List Nat) : VState :=
  (splitBlocks (rate / 8) paddedMessage).foldl (fun state block =>
    permutationV (stateXorV state (stateOfBytesV (block ++ List.replicate (capacity / 8) 0))) rc)
    zerosV

/-- Value of `copyList`. -/
def copyListV (bytestring outputArray : List Nat) (start len : Nat) : List Nat :=
  (List.range len).foldl (fun arr i => arr.set (start + i) (bytestring.getD i 0)) outputArray

/-- Value of `squeeze` (faithfully extracting every later chunk from the
unchanged initial state, as the source does). -/
def squeezeV (state : VState) (length rate : Nat) (rc : List Nat) : List Nat :=
  let bytesPerSqueeze := rate / 8
  let squeezes := length / rate + 1
  let outputArray := List.replicate (squeezes * bytesPerSqueeze) 0
  let outputArray1 := copyListV ((stateToBytesV state).take bytesPerSqueeze) outputArray 0 bytesPerSqueeze
  let res := (List.range (squeezes - 1)).foldl (fun (acc : VState × List Nat) i =>
    (permutationV acc.1 rc,
     copyListV ((stateToBytesV state).take bytesPerSqueeze) acc.2
       (bytesPerSqueeze * (i + 1)) bytesPerSqueeze))
    (state, outputArray1)
  res.2.take (length / 8)

/-- Value of `sponge`. -/
def spongeV (paddedMessage : List Nat) (length capacity rate : Nat) : List Nat :=
  squeezeV (absorbV paddedMessage capacity rate ROUND_CONSTANTS) length rate ROUND_CONSTANTS

/-- Value of `padNist`. -/
def padNistV (message : List Nat) (rate : Nat) : List Nat :=
  let extraBytes := bytesToPad rate message.length
  let pad0 := List.replicate extraBytes 0
  let pad1 := pad0.set 0 6
  let pad2 := pad1.set (extraBytes - 1) (addP (pad1.getD (extraBytes - 1) 0) (2 ^ 7))
  message ++ pad2

/-- Value of `pad101`. -/
def pad101V (message : List Nat) (rate : Nat) : List Nat :=
  let extraBytes := bytesToPad rate message.length
  let pad0 := List.replicate extraBytes 0
  let pad1 := pad0.set 0 1
  let pad2 := pad1.set (extraBytes - 1) (addP (pad1.getD (extraBytes - 1) 0) (2 ^ 7))
  message ++ pad2

/-- Value of `hash` (for parameter values the validation accepts). -/
def hashV (inpEndian outEndian : Endian) (message : List Nat)
    (length capacity : Nat) (nistVersion : Bool) : List Nat :=
  let messageFormatted := match inpEndian with
    | .Big => message
    | .Little => message.reverse
  let rate := KECCAK_STATE_LENGTH - capacity
  let padded := if nistVersion then padNistV messageFormatted rate
    else pad101V messageFormatted rate
  let h := spongeV padded length capacity rate
  match outEndian with
  | .Big => h
  | .Little => h.reverse

/-! ## Hex encoding and the empty-message digest -/

/-- Hex digit character of a value below 16. -/
def hexDigit (n : Nat) : Char :=
  if n < 10 then Char.ofNat (48 + n) else Char.ofNat (87 + n)

/-- Lowercase hexadecimal encoding of a list of byte values. -/
def hexEncode (bs : List Nat) : String :=
  String.mk (bs.foldr (fun b acc => hexDigit (b / 16) :: hexDigit (b % 16) :: acc) [])

/-- The 32 digest bytes of the legacy Keccak-256 hash of the empty message. -/
def EMPTY_DIGEST : List Nat :=
  [0xc5, 0xd2, 0x46, 0x01, 0x86, 0xf7, 0x23, 0x3c,
   0x92, 0x7e, 0x7d, 0xb2, 0xdc, 0xc7, 0x03, 0xc0,
   0xe5, 0x00, 0xb6, 0x53, 0xca, 0x82, 0x27, 0x3b,
   0x7b, 0xfa, 0xd8, 0x04, 0x5d, 0x85, 0xa4, 0x70]

/-- Input byte-order normalization of the facade, at the value level. -/
def fmtV (ie : Endian) (m : List Nat) : List Nat :=
  match ie with
  | .Big => m
  | .Little => m.reverse


/-! ## Run-equation and simulation infrastructure -/

theorem pure_run (a : α) (st : BState) : (pure a : M α) st = (.ok a, st) := rfl

theorem bind_run (m : M α) (f : α → M β) (st : BState) :
    (m >>= f) st = match m st with
      | (.ok a, st') => f a st'
      | (.error e, st') => (.error e, st') := rfl

theorem bind_ok {m : M α} {f : α → M β} {st : BState} {a : α} {st₁ : BState}
    (h : m st = (.ok a, st₁)) : (m >>= f) st = f a st₁ := by
  show (match m st with
    | (.ok a, st') => f a st'
    | (.error e, st') => (.error e, st')) = f a st₁
  rw [h]

theorem bind_error {m : M α} {f : α → M β} {st : BState} {e : String} {st₁ : BState}
    (h : m st = (.error e, st₁)) : (m >>= f) st = (.error e, st₁) := by
  show (match m st with
    | (.ok a, st') => f a st'
    | (.error e, st') => (.error e, st')) = (.error e, st₁)
  rw [h]

theorem massert_run_pos (p : Prop) [Decidable p] (msg : String) (st : BState) (hp : p) :
    massert p msg st = (.ok (), st) := by
  simp [massert, hp]

theorem massert_run_neg (p : Prop) [Decidable p] (msg : String) (st : BState) (hp : ¬ p) :
    massert p msg st = (.error msg, st) := by
  simp [massert, hp]

/-- Every constraint of the first state is still present in the second. -/
def ConsGrow (st st' : BState) : Prop :=
  ∀ c ∈ st.constraints, c ∈ st'.constraints

/-- Builder-state extension without new witnesses: constraints only grow and
the witnessed list is unchanged. -/
def ExtC (st st' : BState) : Prop :=
  ConsGrow st st' ∧ st'.witnessed = st.witnessed

/-- Builder-state extension in which every newly declared witness has been
constrained: constraints only grow, and every witnessed variable of the new
state was either already witnessed or appears in some constraint of the new
state. -/
def ExtW (st st' : BState) : Prop :=
  ConsGrow st st' ∧
  ∀ w ∈ st'.witnessed, w ∈ st.witnessed ∨ ∃ c ∈ st'.constraints, w ∈ c

theorem ConsGrow.reflG (st : BState) : ConsGrow st st := fun _ h => h

theorem ConsGrow.transG {st₁ st₂ st₃ : BState}
    (h1 : ConsGrow st₁ st₂) (h2 : ConsGrow st₂ st₃) : ConsGrow st₁ st₃ :=
  fun c hc => h2 c (h1 c hc)

theorem ExtC.reflC (st : BState) : ExtC st st := ⟨ConsGrow.reflG st, rfl⟩

theorem ExtC.transC {st₁ st₂ st₃ : BState}
    (h1 : ExtC st₁ st₂) (h2 : ExtC st₂ st₃) : ExtC st₁ st₃ :=
  ⟨h1.1.transG h2.1, h2.2.trans h1.2⟩

theorem ExtC.toExtW {st st' : BState} (h : ExtC st st') : ExtW st st' :=
  ⟨h.1, fun w hw => Or.inl (h.2 ▸ hw)⟩

theorem ExtW.reflW (st : BState) : ExtW st st := (ExtC.reflC st).toExtW

theorem ExtW.transW {st₁ st₂ st₃ : BState}
    (h1 : ExtW st₁ st₂) (h2 : ExtW st₂ st₃) : ExtW st₁ st₃ := by
  refine ⟨h1.1.transG h2.1, fun w hw => ?_⟩
  rcases h2.2 w hw with h | h
  · rcases h1.2 w h with h' | ⟨c, hc, hwc⟩
    · exact Or.inl h'
    · exact Or.inr ⟨c, h2.1 c hc, hwc⟩
  · exact Or.inr h

/-- Every witnessed variable of the builder state appears in some emitted
constraint: the soundness invariant of the witness/constraint pattern. -/
def WitnessedConstrained (st : BState) : Prop :=
  ∀ w ∈ st.witnessed, ∃ c ∈ st.constraints, w ∈ c

theorem WitnessedConstrained.of_extW {st st' : BState}
    (h : WitnessedConstrained st) (hext : ExtW st st') : WitnessedConstrained st' := by
  intro w hw
  rcases hext.2 w hw with hold | hnew
  · obtain ⟨c, hc, hwc⟩ := h w hold
    exact ⟨c, hext.1 c hc, hwc⟩
  · exact hnew

/-- A computation that always succeeds, returns a result satisfying `P`, and
extends the builder state without declaring witnesses. -/
def SimC (m : M α) (P : α → Prop) : Prop :=
  ∀ st, ∃ a st', m st = (.ok a, st') ∧ P a ∧ ExtC st st'

/-- A computation that always succeeds, returns a result satisfying `P`, and
extends the builder state constraining every witness it declares. -/
def SimW (m : M α) (P : α → Prop) : Prop :=
  ∀ st, ∃ a st', m st = (.ok a, st') ∧ P a ∧ ExtW st st'

theorem SimC.toSimW {m : M α} {P : α → Prop} (h : SimC m P) : SimW m P := by
  intro st
  obtain ⟨a, st', h1, h2, h3⟩ := h st
  exact ⟨a, st', h1, h2, h3.toExtW⟩

theorem SimC.pure {P : α → Prop} (a : α) (hP : P a) : SimC (pure a : M α) P :=
  fun st => ⟨a, st, rfl, hP, ExtC.reflC st⟩

theorem SimC.bindC {m : M α} {P : α → Prop} {f : α → M β} {Q : β → Prop}
    (hm : SimC m P) (hf : ∀ a, P a → SimC (f a) Q) : SimC (m >>= f) Q := by
  intro st
  obtain ⟨a, st₁, h1, hP, hE1⟩ := hm st
  obtain ⟨b, st₂, h2, hQ, hE2⟩ := hf a hP st₁
  exact ⟨b, st₂, by rw [bind_ok h1]; exact h2, hQ, hE1.transC hE2⟩

theorem SimW.bindW {m : M α} {P : α → Prop} {f : α → M β} {Q : β → Prop}
    (hm : SimW m P) (hf : ∀ a, P a → SimW (f a) Q) : SimW (m >>= f) Q := by
  intro st
  obtain ⟨a, st₁, h1, hP, hE1⟩ := hm st
  obtain ⟨b, st₂, h2, hQ, hE2⟩ := hf a hP st₁
  exact ⟨b, st₂, by rw [bind_ok h1]; exact h2, hQ, hE1.transW hE2⟩

theorem SimC.of_runC {m : M α} {P : α → Prop} (h : SimC m P)
    {st : BState} {a : α} {st' : BState} (hrun : m st = (.ok a, st')) :
    P a ∧ ExtC st st' := by
  obtain ⟨a₀, st₀, h1, hP, hE⟩ := h st
  rw [hrun] at h1
  cases h1
  exact ⟨hP, hE⟩

theorem SimW.of_runW {m : M α} {P : α → Prop} (h : SimW m P)
    {st : BState} {a : α} {st' : BState} (hrun : m st = (.ok a, st')) :
    P a ∧ ExtW st st' := by
  obtain ⟨a₀, st₀, h1, hP, hE⟩ := h st
  rw [hrun] at h1
  cases h1
  exact ⟨hP, hE⟩

theorem SimC.massert (p : Prop) [Decidable p] (msg : String) (hp : p) :
    SimC (massert p msg) (fun _ => True) := by
  intro st
  exact ⟨(), st, massert_run_pos p msg st hp, trivial, ExtC.reflC st⟩

theorem SimC.monoC {m : M α} {P Q : α → Prop} (h : SimC m P) (hPQ : ∀ a, P a → Q a) :
    SimC m Q := by
  intro st
  obtain ⟨a, st', h1, hP, hE⟩ := h st
  exact ⟨a, st', h1, hPQ a hP, hE⟩

theorem SimW.monoW {m : M α} {P Q : α → Prop} (h : SimW m P) (hPQ : ∀ a, P a → Q a) :
    SimW m Q := by
  intro st
  obtain ⟨a, st', h1, hP, hE⟩ := h st
  exact ⟨a, st', h1, hPQ a hP, hE⟩

/-- The XOR gadget returns the bitwise XOR of the input values. -/
theorem SimC.gxor (a b : CV) (w : Nat) :
    SimC (Gadgets.xor a b w) (fun r => r.val = a.val ^^^ b.val) := by
  intro st
  refine ⟨_, _, rfl, rfl, ⟨fun c hc => List.mem_cons_of_mem _ hc, rfl⟩⟩

/-- The AND gadget returns the bitwise AND of the input values. -/
theorem SimC.gand (a b : CV) (w : Nat) :
    SimC (Gadgets.and a b w) (fun r => r.val = a.val &&& b.val) := by
  intro st
  refine ⟨_, _, rfl, rfl, ⟨fun c hc => List.mem_cons_of_mem _ hc, rfl⟩⟩

/-- The rotate gadget returns the left rotation of the input value. -/
theorem SimC.grotate (a : CV) (n : Nat) :
    SimC (Gadgets.rotate a n) (fun r => r.val = rotl64 a.val n) := by
  intro st
  refine ⟨_, _, rfl, rfl, ⟨fun c hc => List.mem_cons_of_mem _ hc, rfl⟩⟩

theorem SimC.grangeCheck8 (a : CV) : SimC (rangeCheck8 a) (fun _ => True) := by
  intro st
  refine ⟨_, _, rfl, trivial, ⟨fun c hc => List.mem_cons_of_mem _ hc, rfl⟩⟩

theorem SimC.gassertEquals (a b : CV) : SimC (assertEquals a b) (fun _ => True) := by
  intro st
  refine ⟨_, _, rfl, trivial, ⟨fun c hc => List.mem_cons_of_mem _ hc, rfl⟩⟩

/-- Mapping a per-element computation that realizes `g` over a list realizes
the mapped list of values under projection `V`. -/
theorem SimC.mapML {f : α → M β} {V : β → γ} {g : α → γ} (l : List α)
    (hf : ∀ a ∈ l, SimC (f a) (fun r => V r = g a)) :
    SimC (mapML f l) (fun rs => rs.map V = l.map g) := by
  induction l with
  | nil => exact SimC.pure [] (by simp)
  | cons x xs ih =>
    refine SimC.bindC (hf x (by simp)) (fun y hy => ?_)
    refine SimC.bindC (ih (fun a ha => hf a (List.mem_cons_of_mem _ ha))) (fun ys hys => ?_)
    exact SimC.pure (y :: ys) (by simp [hy, hys])

/-- Folding a per-step computation that realizes `g` realizes the pure fold
under projection `V`. -/
theorem SimC.foldC {f : β → α → M β} {V : β → γ} {g : γ → α → γ} (l : List α)
    (hf : ∀ b, ∀ a ∈ l, SimC (f b a) (fun r => V r = g (V b) a)) (b : β) :
    SimC (foldlML f b l) (fun r => V r = l.foldl g (V b)) := by
  induction l generalizing b with
  | nil => exact SimC.pure b (by simp)
  | cons x xs ih =>
    refine SimC.bindC (hf b x (by simp)) (fun y hy => ?_)
    refine (ih (fun b' a ha => hf b' a (List.mem_cons_of_mem _ ha)) y).monoC ?_
    intro r hr
    simp [hr, hy]

theorem SimC.forML {f : α → M Unit} (l : List α)
    (hf : ∀ a ∈ l, SimC (f a) (fun _ => True)) :
    SimC (forML f l) (fun _ => True) := by
  induction l with
  | nil => exact SimC.pure () trivial
  | cons x xs ih =>
    refine SimC.bindC (hf x (by simp)) (fun _ _ => ?_)
    exact ih (fun a ha => hf a (List.mem_cons_of_mem _ ha))

/-- `SimW` version of the fold lemma, for step computations that declare and
immediately constrain witnesses. -/
theorem SimW.foldW {f : β → α → M β} {V : β → γ} {g : γ → α → γ} (l : List α)
    (hf : ∀ b, ∀ a ∈ l, SimW (f b a) (fun r => V r = g (V b) a)) (b : β) :
    SimW (foldlML f b l) (fun r => V r = l.foldl g (V b)) := by
  induction l generalizing b with
  | nil => exact (SimC.pure b (by simp)).toSimW
  | cons x xs ih =>
    refine SimW.bindW (hf b x (by simp)) (fun y hy => ?_)
    refine (ih (fun b' a ha => hf b' a (List.mem_cons_of_mem _ ha)) y).monoW ?_
    intro r hr
    simp [hr, hy]

/-! ## Value-projection helpers -/

theorem val_fieldFrom (c : Nat) : (fieldFrom c).val = c % FIELD_P := rfl

@[simp] theorem val_fieldFrom_zero : (fieldFrom 0).val = 0 := by
  simp [fieldFrom]

@[simp] theorem getD_bvals (l : List CV) (i : Nat) :
    (bvals l).getD i 0 = (l.getD i (fieldFrom 0)).val := by
  have h := List.getD_map l (fieldFrom 0) (n := i) CV.val
  rw [val_fieldFrom_zero] at h
  exact h

/-- `.val` of an indexed lookup equals the lookup in the projected list. -/
theorem val_getD (l : List CV) (i : Nat) :
    (l.getD i (fieldFrom 0)).val = (l.map CV.val).getD i 0 :=
  (getD_bvals l i).symm

theorem getD_vals_row (s : KState) (x : Nat) :
    (vals s).getD x [] = (s.getD x []).map CV.val := by
  have h := List.getD_map s ([] : List CV) (n := x) (fun r => r.map CV.val)
  simpa [vals] using h

@[simp] theorem vget_vals (s : KState) (x y : Nat) :
    vget (vals s) x y = (sget s x y).val := by
  rw [vget, getD_vals_row]
  have h := List.getD_map (s.getD x []) (fieldFrom 0) (n := y) CV.val
  rw [val_fieldFrom_zero] at h
  rw [h, sget]

@[simp] theorem vals_setCell (s : KState) (x y : Nat) (v : CV) :
    vals (setCell s x y v) = vset (vals s) x y v.val := by
  simp only [vals, setCell, vset, List.map_set]
  congr 2
  have h := List.getD_map s ([] : List CV) (n := x) (fun r => List.map CV.val r)
  simp only [List.map_nil] at h
  rw [h]

@[simp] theorem vals_zeros : vals getKeccakStateZeros = zerosV := by
  simp [vals, getKeccakStateZeros, zerosV, List.map_map, Function.comp, val_fieldFrom_zero]

theorem bvals_length (l : List CV) : (bvals l).length = l.length := by
  simp [bvals]

/-- Projecting the values of a doubly nested range construction. -/
theorem vals_map_range (n m : Nat) (F : Nat → Nat → CV) :
    vals ((List.range n).map fun x => (List.range m).map fun y => F x y) =
      (List.range n).map fun x => (List.range m).map fun y => (F x y).val := by
  simp [vals, List.map_map, Function.comp]

/-- Value of a weighted-sum accumulation of circuit values. -/
theorem val_foldl_fadd (l : List Nat) (F : Nat → CV) (Fv : Nat → Nat)
    (hF : ∀ z ∈ l, (F z).val = Fv z) (acc : CV) :
    (l.foldl (fun a z => fadd a (F z)) acc).val =
      l.foldl (fun a z => addP a (Fv z)) acc.val := by
  induction l generalizing acc with
  | nil => rfl
  | cons z zs ih =>
    simp only [List.foldl_cons]
    rw [ih (fun z' hz' => hF z' (List.mem_cons_of_mem _ hz'))]
    simp [fadd, hF z (by simp)]

/-! ## Correspondence lemmas: codec and round primitives -/

theorem getKeccakStateOfBytes_run (bs : List CV) (h : bs.length = 200) :
    SimC (getKeccakStateOfBytes bs) (fun s => vals s = stateOfBytesV (bvals bs)) := by
  refine SimC.bindC (SimC.massert _ _ h) (fun _ _ => ?_)
  refine SimC.pure _ ?_
  rw [vals_map_range, stateOfBytesV]
  refine List.map_congr_left (fun x hx => ?_)
  refine List.map_congr_left (fun y hy => ?_)
  rw [val_foldl_fadd _ _
    (fun z => mulP (2 ^ (8 * z) % FIELD_P)
      ((bvals bs).getD (BYTES_PER_WORD * (KECCAK_DIM * y + x) + z) 0))
    (fun z hz => by simp only [getD_bvals]; rfl) (fieldFrom 0)]
  rw [val_fieldFrom_zero]

theorem keccakStateXor_run (a b : KState)
    (ha : a.length = KECCAK_DIM ∧ (a.getD 0 []).length = KECCAK_DIM)
    (hb : b.length = KECCAK_DIM ∧ (b.getD 0 []).length = KECCAK_DIM) :
    SimC (keccakStateXor a b) (fun s => vals s = stateXorV (vals a) (vals b)) := by
  refine SimC.bindC (SimC.massert _ _ ha) (fun _ _ => ?_)
  refine SimC.bindC (SimC.massert _ _ hb) (fun _ _ => ?_)
  refine (SimC.mapML (V := fun r => r.map CV.val)
    (g := fun x => (List.range KECCAK_DIM).map fun y => (sget a x y).val ^^^ (sget b x y).val)
    _ (fun x hx => ?_)).monoC (fun rs hrs => ?_)
  · refine SimC.mapML (V := CV.val) _ (fun y hy => ?_)
    exact (SimC.gxor _ _ _).monoC (fun r hr => by simp [hr])
  · show vals rs = _
    rw [vals, hrs, stateXorV]
    simp only [vget_vals]

theorem theta_run (s : KState) : SimC (theta s) (fun r => vals r = thetaV (vals s)) := by
  have hc : SimC (mapML (fun x =>
      foldlML (fun acc y => Gadgets.xor acc (sget s x (y + 1)) KECCAK_WORD)
        (sget s x 0) (List.range (KECCAK_DIM - 1))) (List.range KECCAK_DIM))
      (fun rs => rs.map CV.val = (List.range KECCAK_DIM).map fun x =>
        (List.range (KECCAK_DIM - 1)).foldl (fun acc y => acc ^^^ (sget s x (y + 1)).val)
          ((sget s x 0).val)) := by
    refine SimC.mapML _ (fun x hx => ?_)
    refine (SimC.foldC (V := CV.val)
      (g := fun acc y => acc ^^^ (sget s x (y + 1)).val) _ (fun b y hy => ?_) _).monoC
      (fun r hr => by simp [hr])
    exact (SimC.gxor _ _ _).monoC (fun r hr => by simp [hr])
  refine SimC.bindC hc (fun stateC hC => ?_)
  have hd : SimC (mapML (fun x => do
      let r ← Gadgets.rotate (stateC.getD ((x + 1) % KECCAK_DIM) (fieldFrom 0)) 1
      Gadgets.xor (stateC.getD ((x + KECCAK_DIM - 1) % KECCAK_DIM) (fieldFrom 0)) r KECCAK_WORD)
      (List.range KECCAK_DIM))
      (fun rs => rs.map CV.val = (List.range KECCAK_DIM).map fun x =>
        ((stateC.map CV.val).getD ((x + KECCAK_DIM - 1) % KECCAK_DIM) 0) ^^^
          rotl64 ((stateC.map CV.val).getD ((x + 1) % KECCAK_DIM) 0) 1) := by
    refine SimC.mapML _ (fun x hx => ?_)
    refine SimC.bindC (SimC.grotate _ _) (fun r hr => ?_)
    refine (SimC.gxor _ _ _).monoC (fun r2 hr2 => ?_)
    simp only [hr2, hr, val_getD]
  refine SimC.bindC hd (fun stateD hD => ?_)
  refine (SimC.mapML (V := fun r => r.map CV.val)
    (g := fun x => (List.range KECCAK_DIM).map fun y =>
      (sget s x y).val ^^^ (stateD.map CV.val).getD x 0) _ (fun x hx => ?_)).monoC
    (fun rs hrs => ?_)
  · refine SimC.mapML (V := CV.val) _ (fun y hy => ?_)
    refine (SimC.gxor _ _ _).monoC (fun r hr => ?_)
    simp only [hr, val_getD]
  · show vals rs = thetaV (vals s)
    rw [vals, hrs, thetaV]
    simp only [vget_vals]
    rw [hD, hC]

theorem piRho_run (s : KState) : SimC (piRho s) (fun r => vals r = piRhoV (vals s)) := by
  rw [piRho, piRhoV]
  refine (SimC.foldC (V := vals)
    (g := fun stB x => (List.range KECCAK_DIM).foldl (fun stB2 y =>
      vset stB2 y ((2 * x + 3 * y) % KECCAK_DIM)
        (rotl64 ((sget s x y).val) ((ROT_TABLE.getD x []).getD y 0))) stB)
    _ (fun b x hx => ?_) _).monoC (fun r hr => by
      simp only [hr, vals_zeros, vget_vals])
  refine (SimC.foldC (V := vals)
    (g := fun stB2 y => vset stB2 y ((2 * x + 3 * y) % KECCAK_DIM)
      (rotl64 ((sget s x y).val) ((ROT_TABLE.getD x []).getD y 0)))
    _ (fun b2 y hy => ?_) b).monoC (fun r hr => by simpa using hr)
  refine SimC.bindC (SimC.grotate _ _) (fun r hr => ?_)
  refine SimC.pure _ ?_
  simp [vals_setCell, hr]

theorem chi_run (s : KState) : SimC (chi s) (fun r => vals r = chiV (vals s)) := by
  rw [chi, chiV]
  refine (SimC.foldC (V := vals)
    (g := fun stF x => (List.range KECCAK_DIM).foldl (fun stF2 y =>
      vset stF2 x y
        ((sget s x y).val ^^^
          (((2 ^ KECCAK_WORD - 1) ^^^ (sget s ((x + 1) % KECCAK_DIM) y).val) &&&
            (sget s ((x + 2) % KECCAK_DIM) y).val))) stF)
    _ (fun b x hx => ?_) _).monoC (fun r hr => by
      simp only [hr, vals_zeros, vget_vals])
  refine (SimC.foldC (V := vals)
    (g := fun stF2 y => vset stF2 x y
      ((sget s x y).val ^^^
        (((2 ^ KECCAK_WORD - 1) ^^^ (sget s ((x + 1) % KECCAK_DIM) y).val) &&&
          (sget s ((x + 2) % KECCAK_DIM) y).val)))
    _ (fun b2 y hy => ?_) b).monoC (fun r hr => by simpa using hr)
  refine SimC.bindC (SimC.gand _ _ _) (fun a ha => ?_)
  refine SimC.bindC (SimC.gxor _ _ _) (fun r hr => ?_)
  refine SimC.pure _ ?_
  simp [vals_setCell, hr, ha, Gadgets.not]

theorem iota_run (s : KState) (rc : CV) :
    SimC (iota s rc) (fun r => vals r = iotaV (vals s) rc.val) := by
  rw [iota, iotaV]
  refine SimC.bindC (SimC.gxor _ _ _) (fun g hg => ?_)
  refine SimC.pure _ ?_
  simp [vals_setCell, hg]

theorem round_run (s : KState) (rc : CV) :
    SimC (round s rc) (fun r => vals r = roundV (vals s) rc.val) := by
  rw [round, roundV]
  refine SimC.bindC (theta_run s) (fun e he => ?_)
  refine SimC.bindC (piRho_run e) (fun b hb => ?_)
  refine SimC.bindC (chi_run b) (fun f hf => ?_)
  refine (iota_run f rc).monoC (fun r hr => ?_)
  rw [hr, hf, hb, he]

theorem permutation_run (s : KState) (rc : List CV) :
    SimC (permutation s rc) (fun r => vals r = permutationV (vals s) (bvals rc)) := by
  have h := (SimC.foldC (V := vals) (g := fun v cv => roundV v cv.val)
    (f := fun b cv => round b cv) rc (fun b cv hcv => round_run b cv) s).monoC
    (P := fun r => vals r = rc.foldl (fun v cv => roundV v cv.val) (vals s))
    (fun r hr => hr)
  refine h.monoC (fun r hr => ?_)
  rw [hr, permutationV, bvals, List.foldl_map]

/-! ## Witness bookkeeping: `keccakStateToBytes` -/

/-- Explicit run of a sequence of `existsOne` declarations: the returned
circuit values carry the declared values paired with consecutive fresh
variable ids, all of which are recorded as witnessed; no constraint is
emitted. -/
theorem mapML_existsOne_run (g : Nat → Nat) (l : List Nat) (st : BState) :
    mapML (fun i => existsOne (g i)) l st =
      (.ok (((List.range' st.nextVar l.length).zip l).map fun p => ⟨g p.2, [p.1]⟩),
       { st with nextVar := st.nextVar + l.length,
                 witnessed := (List.range' st.nextVar l.length).reverse ++ st.witnessed }) := by
  induction l generalizing st with
  | nil =>
    show (pure [] : M (List CV)) st = _
    rw [pure_run]
    simp
  | cons x xs ih =>
    show (existsOne (g x) >>= fun y =>
      mapML (fun i => existsOne (g i)) xs >>= fun ys => pure (y :: ys)) st = _
    rw [bind_ok (show existsOne (g x) st = _ from rfl), bind_ok (ih _), pure_run]
    simp only [List.length_cons, List.range'_succ, List.zip_cons_cons, List.map_cons,
      List.reverse_cons, List.append_assoc, List.singleton_append]
    have harith : st.nextVar + 1 + xs.length = st.nextVar + (xs.length + 1) := by omega
    rw [harith]

/-- Values of the circuit values produced by a run of `existsOne` declarations. -/
theorem bvals_zip_range' (l : List Nat) (n : Nat) (g : Nat → Nat) :
    bvals (((List.range' n l.length).zip l).map fun p => ⟨g p.2, [p.1]⟩) = l.map g := by
  induction l generalizing n with
  | nil => rfl
  | cons x xs ih =>
    simp only [List.length_cons, List.range'_succ, List.zip_cons_cons, List.map_cons, bvals]
    simp only [bvals] at ih
    rw [ih]

/-- A variable mentioned by the accumulator stays mentioned by the
byte-recomposition fold. -/
theorem vars_comp_mono (l : List (Nat × CV)) (v : Nat) :
    ∀ acc : CV, v ∈ acc.vars →
      v ∈ (l.foldl (fun a xi => fadd a (fmul xi.2 (fieldFrom (2 ^ (8 * xi.1))))) acc).vars := by
  induction l with
  | nil => exact fun acc hv => hv
  | cons x xs ih =>
    intro acc hv
    exact ih _ (List.mem_append_left _ hv)

/-- A variable mentioned by any byte in the list is mentioned by the
byte-recomposition fold. -/
theorem vars_comp_mem (l : List (Nat × CV)) (v : Nat) :
    ∀ b : CV, b ∈ l.map Prod.snd → v ∈ b.vars → ∀ acc : CV,
      v ∈ (l.foldl (fun a xi => fadd a (fmul xi.2 (fieldFrom (2 ^ (8 * xi.1))))) acc).vars := by
  induction l with
  | nil => intro b hb; simp at hb
  | cons x xs ih =>
    intro b hb hv acc
    simp only [List.map_cons, List.mem_cons] at hb
    rcases hb with h | h
    · subst h
      exact vars_comp_mono xs v _ (List.mem_append_right _ (List.mem_append_left _ hv))
    · exact ih b h hv _

/-- Run of `checkBytesToWord`: emits exactly one constraint, mentioning the
word's variables followed by the composition's variables. -/
theorem checkBytesToWord_run (word : CV) (wordBytes : List CV) (st : BState) :
    checkBytesToWord word wordBytes st =
      (.ok (),
       { st with constraints :=
          (word.vars ++ (wordBytes.enum.foldl (fun acc xi =>
            fadd acc (fmul xi.2 (fieldFrom (2 ^ (8 * xi.1))))) (fieldFrom 0)).vars)
            :: st.constraints }) := rfl

/-- The variable-id list of the recomposition constraint that
`keccakStateToBytes` emits for lane (x, y): the lane's variables followed by
the variables of the weighted sum of its 8 claimed bytes. -/
def byteRecompCons (s : KState) (bytestring : List CV) (x y : Nat) : List Nat :=
  (sget s x y).vars ++
    (((bytestring.drop (BYTES_PER_WORD * (KECCAK_DIM * y + x))).take BYTES_PER_WORD).enum.foldl
      (fun acc xi => fadd acc (fmul xi.2 (fieldFrom (2 ^ (8 * xi.1))))) (fieldFrom 0)).vars

theorem checkBytesToWord_slice_run (s : KState) (bytestring : List CV) (x y : Nat)
    (st : BState) :
    checkBytesToWord (sget s x y)
      ((bytestring.drop (BYTES_PER_WORD * (KECCAK_DIM * y + x))).take BYTES_PER_WORD) st =
      (.ok (), { st with constraints := byteRecompCons s bytestring x y :: st.constraints }) := rfl

/-- Iterating constraint-building steps for effect: each step's
postcondition (monotone under constraint growth) holds for every element at
the final state. -/
theorem forML_post (l : List α) (f : α → M Unit) (Q : α → BState → Prop)
    (hmono : ∀ a st st', Q a st → ConsGrow st st' → Q a st')
    (hf : ∀ a ∈ l, ∀ st, ∃ st', f a st = (.ok (), st') ∧ ExtC st st' ∧ Q a st') :
    ∀ st, ∃ st', forML f l st = (.ok (), st') ∧ ExtC st st' ∧ ∀ a ∈ l, Q a st' := by
  induction l with
  | nil => exact fun st => ⟨st, rfl, ExtC.reflC st, by simp⟩
  | cons x xs ih =>
    intro st
    obtain ⟨st₁, hrun₁, hext₁, hQ₁⟩ := hf x (by simp) st
    obtain ⟨st₂, hrun₂, hext₂, hQ₂⟩ := ih (fun a ha => hf a (List.mem_cons_of_mem _ ha)) st₁
    refine ⟨st₂, ?_, hext₁.transC hext₂, fun a ha => ?_⟩
    · show (f x >>= fun _ => forML f xs) st = _
      rw [bind_ok hrun₁, hrun₂]
    · rcases List.mem_cons.mp ha with h | h
      · rw [h]
        exact hmono x st₁ st₂ hQ₁ hext₂.1
      · exact hQ₂ a h

/-- Run of `keccakStateToBytes`: always succeeds, the returned bytes carry
the shifted-and-masked lane values, and every one of the 200 witnesses it
declares is constrained by the recomposition constraint of its lane. -/
theorem keccakStateToBytes_run (s : KState) :
    SimW (keccakStateToBytes s)
      (fun bs => bvals bs = stateToBytesV (vals s) ∧ bs.length = 200) := by
  intro st
  have h200 : KECCAK_STATE_LENGTH / 8 = 200 := rfl
  have h1 := mapML_existsOne_run
    (fun idx => ((sget s (idx / BYTES_PER_WORD % KECCAK_DIM)
      (idx / BYTES_PER_WORD / KECCAK_DIM)).val >>> (8 * (idx % BYTES_PER_WORD))) &&& 255)
    (List.range (KECCAK_STATE_LENGTH / 8)) st
  simp only [List.length_range] at h1
  generalize hBT : ((List.range' st.nextVar (KECCAK_STATE_LENGTH / 8)).zip
      (List.range (KECCAK_STATE_LENGTH / 8))).map
      (fun p => (⟨((sget s (p.2 / BYTES_PER_WORD % KECCAK_DIM)
        (p.2 / BYTES_PER_WORD / KECCAK_DIM)).val >>> (8 * (p.2 % BYTES_PER_WORD))) &&& 255,
        [p.1]⟩ : CV)) = BT at h1
  -- Run the 25 recomposition constraints.
  have hinner : ∀ y ∈ List.range KECCAK_DIM, ∀ stA, ∃ stB,
      forML (fun x => checkBytesToWord (sget s x y)
        ((BT.drop (BYTES_PER_WORD * (KECCAK_DIM * y + x))).take BYTES_PER_WORD))
        (List.range KECCAK_DIM) stA = (.ok (), stB) ∧ ExtC stA stB ∧
      ∀ x ∈ List.range KECCAK_DIM, byteRecompCons s BT x y ∈ stB.constraints := by
    intro y hy
    refine forML_post _ _ (fun x stA => byteRecompCons s BT x y ∈ stA.constraints)
      (fun x stA stB hQ hgrow => hgrow _ hQ) (fun x hx stA => ?_)
    exact ⟨_, checkBytesToWord_slice_run s BT x y stA,
      ⟨fun c hc => List.mem_cons_of_mem _ hc, rfl⟩, List.mem_cons_self _ _⟩
  obtain ⟨ST2, hrun2, hext2, hcov⟩ := forML_post (List.range KECCAK_DIM)
    (fun y => forML (fun x => checkBytesToWord (sget s x y)
      ((BT.drop (BYTES_PER_WORD * (KECCAK_DIM * y + x))).take BYTES_PER_WORD))
      (List.range KECCAK_DIM))
    (fun y stA => ∀ x ∈ List.range KECCAK_DIM, byteRecompCons s BT x y ∈ stA.constraints)
    (fun y stA stB hQ hgrow => fun x hx => hgrow _ (hQ x hx)) hinner
    { st with
      nextVar := st.nextVar + KECCAK_STATE_LENGTH / 8,
      witnessed := (List.range' st.nextVar (KECCAK_STATE_LENGTH / 8)).reverse ++ st.witnessed }
  have hrunfull : keccakStateToBytes s st = (.ok BT, ST2) := by
    unfold keccakStateToBytes
    rw [bind_ok h1, bind_ok hrun2, pure_run]
  have hBTlen : BT.length = 200 := by
    rw [← hBT]
    simp [List.length_zip, h200]
  have hvals : bvals BT = stateToBytesV (vals s) := by
    rw [← hBT]
    have hb := bvals_zip_range' (List.range (KECCAK_STATE_LENGTH / 8)) st.nextVar
      (fun idx => ((sget s (idx / BYTES_PER_WORD % KECCAK_DIM)
        (idx / BYTES_PER_WORD / KECCAK_DIM)).val >>> (8 * (idx % BYTES_PER_WORD))) &&& 255)
    rw [List.length_range] at hb
    rw [hb, stateToBytesV]
    simp only [vget_vals]
  refine ⟨BT, ST2, hrunfull, ⟨hvals, hBTlen⟩, ?_, ?_⟩
  · -- constraints only grow
    intro c hc
    exact hext2.1 c hc
  · -- every witness is old or constrained
    intro w hw
    rw [hext2.2] at hw
    simp only [List.mem_append, List.mem_reverse] at hw
    rcases hw with hw | hw
    · right
      rw [List.mem_range'] at hw
      obtain ⟨i, hi, hwi⟩ := hw
      rw [h200] at hi
      have hx5 : (i / BYTES_PER_WORD % KECCAK_DIM) ∈ List.range KECCAK_DIM := by
        rw [List.mem_range]
        show i / 8 % 5 < 5
        omega
      have hy5 : (i / BYTES_PER_WORD / KECCAK_DIM) ∈ List.range KECCAK_DIM := by
        rw [List.mem_range]
        show i / 8 / 5 < 5
        omega
      refine ⟨byteRecompCons s BT (i / BYTES_PER_WORD % KECCAK_DIM)
        (i / BYTES_PER_WORD / KECCAK_DIM), hcov _ hy5 _ hx5, ?_⟩
      rw [byteRecompCons]
      refine List.mem_append_right _ ?_
      have hbase : BYTES_PER_WORD * (KECCAK_DIM * (i / BYTES_PER_WORD / KECCAK_DIM) +
          i / BYTES_PER_WORD % KECCAK_DIM) = 8 * (i / 8) := by
        show 8 * (5 * (i / 8 / 5) + i / 8 % 5) = 8 * (i / 8)
        omega
      have hi200 : 8 * (i / 8) + i % 8 < BT.length := by
        rw [hBTlen]
        omega
      have hmem : BT.get ⟨8 * (i / 8) + i % 8, hi200⟩ ∈ (BT.drop (8 * (i / 8))).take 8 := by
        have hz : i % 8 < ((BT.drop (8 * (i / 8))).take 8).length := by
          simp only [List.length_take, List.length_drop, hBTlen]
          omega
        have he : ((BT.drop (8 * (i / 8))).take 8).get ⟨i % 8, hz⟩ =
            BT.get ⟨8 * (i / 8) + i % 8, hi200⟩ := by
          simp only [List.get_eq_getElem]
          rw [List.getElem_take, List.getElem_drop]
        rw [← he]
        exact List.get_mem _ _ _
      have hBi : BT.get ⟨8 * (i / 8) + i % 8, hi200⟩ =
          (⟨((sget s (i / BYTES_PER_WORD % KECCAK_DIM)
            (i / BYTES_PER_WORD / KECCAK_DIM)).val >>> (8 * (i % BYTES_PER_WORD))) &&& 255,
            [st.nextVar + i]⟩ : CV) := by
        simp only [List.get_eq_getElem]
        have hidx : 8 * (i / 8) + i % 8 = i := by omega
        have hi' : i < (((List.range' st.nextVar (KECCAK_STATE_LENGTH / 8)).zip
            (List.range (KECCAK_STATE_LENGTH / 8)))).length := by
          simp only [List.length_zip, List.length_range', List.length_range, h200]
          omega
        simp only [← hBT, hidx]
        rw [List.getElem_map, List.getElem_zip]
        simp only [List.getElem_range', List.getElem_range]
        simp
      rw [hbase]
      refine vars_comp_mem _ w (BT.get ⟨8 * (i / 8) + i % 8, hi200⟩) ?_ ?_ _
      · rw [List.enum_map_snd]
        exact hmem
      · rw [hBi]
        simp [hwi]
    · left
      exact hw


/-! ## Block splitting -/

theorem splitBlocks_nil (k : Nat) : splitBlocks k ([] : List α) = [] := by
  rw [splitBlocks]

theorem splitBlocks_cons (k : Nat) (hk : k ≠ 0) (x : α) (xs : List α) :
    splitBlocks k (x :: xs) = (x :: xs).take k :: splitBlocks k ((x :: xs).drop k) := by
  rw [splitBlocks]
  simp [hk]

/-- When the block size divides the list length, every block has exactly the
block size. -/
theorem splitBlocks_length_mem {k : Nat} (hk : k ≠ 0) :
    ∀ n (l : List α), l.length ≤ n → k ∣ l.length →
      ∀ b ∈ splitBlocks k l, b.length = k := by
  intro n
  induction n with
  | zero =>
    intro l hl hdvd b hb
    have : l = [] := by
      cases l with
      | nil => rfl
      | cons x xs => simp at hl
    subst this
    rw [splitBlocks_nil] at hb
    simp at hb
  | succ n ih =>
    intro l hl hdvd b hb
    cases l with
    | nil =>
      rw [splitBlocks_nil] at hb
      simp at hb
    | cons x xs =>
      rw [splitBlocks_cons k hk] at hb
      have hklen : k ≤ (x :: xs).length := by
        refine Nat.le_of_dvd ?_ hdvd
        simp
      rcases List.mem_cons.mp hb with h | h
      · subst h
        simp only [List.length_take]
        omega
      · refine ih ((x :: xs).drop k) ?_ ?_ b h
        · simp only [List.length_drop]
          simp only [List.length_cons] at hl ⊢
          omega
        · rw [List.length_drop]
          exact Nat.dvd_sub' hdvd dvd_rfl

/-- Splitting commutes with mapping. -/
theorem splitBlocks_map {k : Nat} (f : α → β) :
    ∀ n (l : List α), l.length ≤ n →
      splitBlocks k (l.map f) = (splitBlocks k l).map (List.map f) := by
  intro n
  induction n with
  | zero =>
    intro l hl
    have : l = [] := by
      cases l with
      | nil => rfl
      | cons x xs => simp at hl
    subst this
    simp [splitBlocks_nil]
  | succ n ih =>
    intro l hl
    cases l with
    | nil => simp [splitBlocks_nil]
    | cons x xs =>
      by_cases hk : k = 0
      · subst hk
        rw [List.map_cons, splitBlocks, splitBlocks]
        simp
      · rw [List.map_cons, splitBlocks_cons k hk, splitBlocks_cons k hk x xs, List.map_cons]
        rw [← List.map_cons f x xs, ← List.map_take, ← List.map_drop]
        congr 1
        refine ih ((x :: xs).drop k) ?_
        simp only [List.length_drop, List.length_cons] at hl ⊢
        omega

theorem splitBlocks_ne_nil {k : Nat} (hk : k ≠ 0) (x : α) (xs : List α) :
    splitBlocks k (x :: xs) ≠ [] := by
  rw [splitBlocks_cons k hk]
  simp

/-! ## State dimensions -/

/-- The two dimension facts `keccakStateXor` asserts about a value state. -/
def VDims (v : VState) : Prop :=
  v.length = 5 ∧ (v.getD 0 []).length = 5

theorem getD_zero_map_range {β : Type} (n : Nat) (hn : 0 < n) (g : Nat → β) (d : β) :
    ((List.range n).map g).getD 0 d = g 0 := by
  cases n with
  | zero => omega
  | succ m =>
    rw [List.range_succ_eq_map]
    simp

/-- Any doubly nested range-5 construction has the right dimensions. -/
theorem VDims_mapRange (F : Nat → Nat → Nat) :
    VDims ((List.range 5).map fun x => (List.range 5).map fun y => F x y) := by
  constructor
  · simp
  · rw [getD_zero_map_range 5 (by omega)]
    simp

theorem VDims_vset (v : VState) (h : VDims v) (x y : Nat) (w : Nat) :
    VDims (vset v x y w) := by
  obtain ⟨h1, h2⟩ := h
  constructor
  · simp [vset, h1]
  · rw [vset, List.getD_eq_getElem?_getD, List.getElem?_set]
    by_cases hx : x = 0
    · subst hx
      rw [if_pos rfl, if_pos (by omega)]
      simp only [Option.getD_some, List.length_set]
      exact h2
    · rw [if_neg hx, ← List.getD_eq_getElem?_getD]
      exact h2

theorem VDims_foldl_vset (l : List Nat) (v : VState) (h : VDims v)
    (step : VState → Nat → VState)
    (hstep : ∀ v' a, VDims v' → VDims (step v' a)) :
    VDims (l.foldl step v) := by
  induction l generalizing v with
  | nil => exact h
  | cons x xs ih => exact ih _ (hstep v x h)

theorem VDims_zerosV : VDims zerosV := by
  constructor
  · simp [zerosV, KECCAK_DIM]
  · rw [zerosV, getD_zero_map_range KECCAK_DIM (by decide)]
    simp [KECCAK_DIM]

theorem VDims_thetaV (v : VState) : VDims (thetaV v) := by
  rw [thetaV]
  exact VDims_mapRange _

theorem VDims_stateXorV (a b : VState) : VDims (stateXorV a b) := by
  rw [stateXorV]
  exact VDims_mapRange _

theorem VDims_stateOfBytesV (b : List Nat) : VDims (stateOfBytesV b) := by
  constructor
  · simp [stateOfBytesV, KECCAK_DIM]
  · rw [stateOfBytesV, getD_zero_map_range KECCAK_DIM (by decide)]
    simp [KECCAK_DIM]

theorem VDims_piRhoV (v : VState) : VDims (piRhoV v) := by
  rw [piRhoV]
  refine VDims_foldl_vset _ _ VDims_zerosV _ (fun v' x hv' => ?_)
  exact VDims_foldl_vset _ _ hv' _ (fun v'' y hv'' => VDims_vset _ hv'' _ _ _)

theorem VDims_chiV (v : VState) : VDims (chiV v) := by
  rw [chiV]
  refine VDims_foldl_vset _ _ VDims_zerosV _ (fun v' x hv' => ?_)
  exact VDims_foldl_vset _ _ hv' _ (fun v'' y hv'' => VDims_vset _ hv'' _ _ _)

theorem VDims_roundV (v : VState) (rc : Nat) : VDims (roundV v rc) := by
  rw [roundV, iotaV]
  exact VDims_vset _ (VDims_chiV _) _ _ _

theorem VDims_permutationV (v : VState) (rc : List Nat) (h : VDims v) :
    VDims (permutationV v rc) := by
  rw [permutationV]
  exact VDims_foldl_vset _ _ h _ (fun v' c hv' => VDims_roundV _ _)

/-- Transfer the dimension facts from the value state to the circuit state. -/
theorem dims_of_vals (s : KState) (v : VState) (h : vals s = v) (hd : VDims v) :
    s.length = KECCAK_DIM ∧ (s.getD 0 []).length = KECCAK_DIM := by
  obtain ⟨h1, h2⟩ := hd
  constructor
  · show s.length = 5
    have hlen : (vals s).length = s.length := by simp [vals]
    rw [h] at hlen
    omega
  · show (s.getD 0 []).length = 5
    have hrow : ((vals s).getD 0 []).length = (s.getD 0 []).length := by
      rw [getD_vals_row]
      simp
    rw [h] at hrow
    omega

/-! ## Round-constant constraint coverage -/

/-- A successful run of `round` leaves a constraint mentioning every
variable of the round constant (the one `iota` emits). -/
theorem round_constrains {s : KState} {c : CV} {st : BState} {r : KState} {st' : BState}
    (h : round s c st = (.ok r, st')) :
    ∀ v ∈ c.vars, ∃ cst ∈ st'.constraints, v ∈ cst := by
  obtain ⟨e, st₁, he, -, -⟩ := theta_run s st
  obtain ⟨b, st₂, hb, -, -⟩ := piRho_run e st₁
  obtain ⟨f, st₃, hf, -, -⟩ := chi_run b st₂
  unfold round at h
  rw [bind_ok he, bind_ok hb, bind_ok hf] at h
  have hio : iota f c st₃ =
      (.ok (setCell f 0 0 ⟨(sget f 0 0).val ^^^ c.val, [st₃.nextVar]⟩),
       { st₃ with
         nextVar := st₃.nextVar + 1,
         constraints := ((sget f 0 0).vars ++ c.vars ++ [st₃.nextVar]) :: st₃.constraints }) := rfl
  rw [hio] at h
  simp only [Prod.mk.injEq] at h
  obtain ⟨-, h2⟩ := h
  subst h2
  intro v hv
  refine ⟨_, List.mem_cons_self _ _, ?_⟩
  exact List.mem_append_left _ (List.mem_append_right _ hv)

/-- A successful run of the permutation driver leaves, for every round
constant in the list, a constraint mentioning each of its variables. -/
theorem permutation_constrains :
    ∀ (rc : List CV) (s : KState) (st : BState) (r : KState) (st' : BState),
      permutation s rc st = (.ok r, st') →
      ∀ cv ∈ rc, ∀ v ∈ cv.vars, ∃ cst ∈ st'.constraints, v ∈ cst := by
  intro rc
  induction rc with
  | nil =>
    intro s st r st' h cv hcv
    simp at hcv
  | cons c rest ih =>
    intro s st r st' h cv hcv
    obtain ⟨r₁, st₁, h1, -, -⟩ := round_run s c st
    have h' : permutation r₁ rest st₁ = (.ok r, st') := by
      have hstep : permutation s (c :: rest) =
          (round s c >>= fun s2 => permutation s2 rest) := by
        simp only [permutation, foldlML]
      rw [hstep, bind_ok h1] at h
      exact h
    rcases List.mem_cons.mp hcv with hc | hc
    · subst hc
      intro v hv
      obtain ⟨cst, hcst, hvc⟩ := round_constrains h1 v hv
      have hgrow : ConsGrow st₁ st' := ((permutation_run r₁ rest).of_runC h').2.1
      exact ⟨cst, hgrow cst hcst, hvc⟩
    · exact ih r₁ st₁ r st' h' cv hc

/-- Explicit run of `exists`: one fresh witnessed variable per declared value,
no constraint emitted. -/
theorem existsMany_run (vs : List Nat) (st : BState) :
    existsMany vs st =
      (.ok (((List.range' st.nextVar vs.length).zip vs).map fun p => ⟨p.2, [p.1]⟩),
       { st with nextVar := st.nextVar + vs.length,
                 witnessed := (List.range' st.nextVar vs.length).reverse ++ st.witnessed }) :=
  mapML_existsOne_run (fun c => c) vs st

/-- Every id in the fresh range belongs to the variables of one of the
declared witnesses. -/
theorem mem_vars_zip_range' (l : List Nat) (n w : Nat) (hw : w ∈ List.range' n l.length) :
    ∃ cv ∈ ((List.range' n l.length).zip l).map (fun p => (⟨p.2, [p.1]⟩ : CV)), w ∈ cv.vars := by
  induction l generalizing n with
  | nil => simp at hw
  | cons x xs ih =>
    simp only [List.length_cons, List.range'_succ] at hw ⊢
    rcases List.mem_cons.mp hw with h | h
    · subst h
      exact ⟨⟨x, [w]⟩, by simp, by simp⟩
    · obtain ⟨cv, hcv, hwcv⟩ := ih (n + 1) h
      exact ⟨cv, by simp [List.mem_cons]; right; simpa using hcv, hwcv⟩

/-! ## Copy and padding value lemmas -/

theorem bvals_copyList (bs arr : List CV) (start len : Nat) :
    bvals (copyList bs arr start len) = copyListV (bvals bs) (bvals arr) start len := by
  rw [copyList, copyListV]
  generalize List.range len = l
  induction l generalizing arr with
  | nil => rfl
  | cons i is ih =>
    simp only [List.foldl_cons]
    rw [ih (arr.set (start + i) (bs.getD i (fieldFrom 0)))]
    congr 1
    rw [getD_bvals]
    show bvals _ = (List.map CV.val arr).set _ _
    rw [bvals, List.map_set]

theorem bvals_replicate_zero (n : Nat) :
    bvals (List.replicate n (fieldFrom 0)) = List.replicate n 0 := by
  rw [bvals, List.map_replicate, val_fieldFrom_zero]

theorem bvals_take (l : List CV) (n : Nat) : bvals (l.take n) = (bvals l).take n := by
  rw [bvals, bvals, List.map_take]

theorem bvals_append (a b : List CV) : bvals (a ++ b) = bvals a ++ bvals b := by
  simp [bvals]

theorem bvals_reverse (l : List CV) : bvals l.reverse = (bvals l).reverse := by
  simp [bvals]

theorem bvals_set (l : List CV) (i : Nat) (v : CV) :
    bvals (l.set i v) = (bvals l).set i v.val := by
  simp [bvals, List.map_set]

theorem bvals_padNist (m : List CV) (r : Nat) : bvals (padNist m r) = padNistV (bvals m) r := by
  have h6 : (fieldFrom 6).val = 6 := by rw [val_fieldFrom]; decide
  have h128 : (fieldFrom (2 ^ 7)).val = 2 ^ 7 := by rw [val_fieldFrom]; decide
  have hp1 : bvals ((List.replicate (bytesToPad r m.length) (fieldFrom 0)).set 0 (fieldFrom 6))
      = (List.replicate (bytesToPad r m.length) 0).set 0 6 := by
    rw [bvals_set, bvals_replicate_zero, h6]
  rw [padNist, padNistV, bvals_append, bvals_length]
  congr 1
  rw [bvals_set, hp1]
  congr 1
  show addP ((((List.replicate (bytesToPad r m.length) (fieldFrom 0)).set 0
      (fieldFrom 6)).getD (bytesToPad r m.length - 1) (fieldFrom 0)).val)
      ((fieldFrom (2 ^ 7)).val) = _
  rw [h128, ← getD_bvals, hp1]

theorem bvals_pad101 (m : List CV) (r : Nat) : bvals (pad101 m r) = pad101V (bvals m) r := by
  have h1v : (fieldFrom 1).val = 1 := by rw [val_fieldFrom]; decide
  have h128 : (fieldFrom (2 ^ 7)).val = 2 ^ 7 := by rw [val_fieldFrom]; decide
  have hp1 : bvals ((List.replicate (bytesToPad r m.length) (fieldFrom 0)).set 0 (fieldFrom 1))
      = (List.replicate (bytesToPad r m.length) 0).set 0 1 := by
    rw [bvals_set, bvals_replicate_zero, h1v]
  rw [pad101, pad101V, bvals_append, bvals_length]
  congr 1
  rw [bvals_set, hp1]
  congr 1
  show addP ((((List.replicate (bytesToPad r m.length) (fieldFrom 0)).set 0
      (fieldFrom 1)).getD (bytesToPad r m.length - 1) (fieldFrom 0)).val)
      ((fieldFrom (2 ^ 7)).val) = _
  rw [h128, ← getD_bvals, hp1]


/-! ## Absorb -/

/-- Invariant-carrying version of the fold simulation lemma. -/
theorem simC_foldlML_inv {f : β → α → M β} {V : β → γ} {g : γ → α → γ} {I : γ → Prop}
    (l : List α)
    (hf : ∀ b, I (V b) → ∀ a ∈ l, SimC (f b a) (fun r => V r = g (V b) a ∧ I (V r)))
    (b : β) (hI : I (V b)) :
    SimC (foldlML f b l) (fun r => V r = l.foldl g (V b) ∧ I (V r)) := by
  induction l generalizing b with
  | nil => exact SimC.pure b (by simpa using hI)
  | cons x xs ih =>
    refine SimC.bindC (hf b hI x (by simp)) (fun y hy => ?_)
    refine (ih (fun b' hI' a ha => hf b' hI' a (List.mem_cons_of_mem _ ha)) y hy.2).monoC ?_
    intro r hr
    exact ⟨by rw [List.foldl_cons, ← hy.1, ← hr.1], hr.2⟩

/-- One absorb iteration: XOR the zero-extended block into the running state
and permute. -/
theorem absorbStep_run (capacity rate : Nat) (rc : List CV) (state : KState) (block : List CV)
    (hlen : block.length = rate / 8) (hsum : rate / 8 + capacity / 8 = 200)
    (hdims : VDims (vals state)) :
    SimC (do
      let paddedBlock := block ++ List.replicate (capacity / 8) (fieldFrom 0)
      massert (paddedBlock.length * 8 = KECCAK_STATE_LENGTH) "improper Keccak block length"
      let blockState ← getKeccakStateOfBytes paddedBlock
      let stateXor ← keccakStateXor state blockState
      permutation stateXor rc)
      (fun r => vals r = permutationV (stateXorV (vals state)
        (stateOfBytesV (bvals block ++ List.replicate (capacity / 8) 0))) (bvals rc) ∧
        VDims (vals r)) := by
  have hplen : (block ++ List.replicate (capacity / 8) (fieldFrom 0)).length = 200 := by
    simp only [List.length_append, List.length_replicate, hlen]
    omega
  have hmassert : (block ++ List.replicate (capacity / 8) (fieldFrom 0)).length * 8 =
      KECCAK_STATE_LENGTH := by
    rw [hplen]
    rfl
  refine SimC.bindC (SimC.massert _ _ hmassert) (fun _ _ => ?_)
  refine SimC.bindC (getKeccakStateOfBytes_run _ hplen) (fun blockState hbs => ?_)
  have hbsv : vals blockState =
      stateOfBytesV (bvals block ++ List.replicate (capacity / 8) 0) := by
    rw [hbs, bvals_append, bvals_replicate_zero]
  refine SimC.bindC (keccakStateXor_run state blockState
    (dims_of_vals state (vals state) rfl hdims)
    (dims_of_vals blockState _ hbsv (VDims_stateOfBytesV _))) (fun sx hsx => ?_)
  refine (permutation_run sx rc).monoC (fun r hr => ?_)
  rw [hr, hsx, hbsv]
  exact ⟨rfl, VDims_permutationV _ _ (VDims_stateXorV _ _)⟩

/-- A successful absorb iteration leaves a constraint for every variable of
every round constant (those of the final permutation). -/
theorem absorbStep_constrains (capacity rate : Nat) (rc : List CV) (state : KState) (block : List CV)
    (hlen : block.length = rate / 8) (hsum : rate / 8 + capacity / 8 = 200)
    (hdims : VDims (vals state)) (st : BState) (r : KState) (st' : BState)
    (hrun : (do
      let paddedBlock := block ++ List.replicate (capacity / 8) (fieldFrom 0)
      massert (paddedBlock.length * 8 = KECCAK_STATE_LENGTH) "improper Keccak block length"
      let blockState ← getKeccakStateOfBytes paddedBlock
      let stateXor ← keccakStateXor state blockState
      permutation stateXor rc) st = (.ok r, st')) :
    ∀ cv ∈ rc, ∀ v ∈ cv.vars, ∃ cst ∈ st'.constraints, v ∈ cst := by
  have hplen : (block ++ List.replicate (capacity / 8) (fieldFrom 0)).length = 200 := by
    simp only [List.length_append, List.length_replicate, hlen]
    omega
  have hmassert : (block ++ List.replicate (capacity / 8) (fieldFrom 0)).length * 8 =
      KECCAK_STATE_LENGTH := by
    rw [hplen]
    rfl
  obtain ⟨bs, stA, hA, hAv, -⟩ := getKeccakStateOfBytes_run
    (block ++ List.replicate (capacity / 8) (fieldFrom 0)) hplen st
  obtain ⟨sx, stB, hB, -, -⟩ := keccakStateXor_run state bs
    (dims_of_vals state (vals state) rfl hdims)
    (dims_of_vals bs _ hAv (VDims_stateOfBytesV _)) stA
  obtain ⟨sp, stC, hC, -, -⟩ := permutation_run sx rc stB
  have hbody : (do
      let paddedBlock := block ++ List.replicate (capacity / 8) (fieldFrom 0)
      massert (paddedBlock.length * 8 = KECCAK_STATE_LENGTH) "improper Keccak block length"
      let blockState ← getKeccakStateOfBytes paddedBlock
      let stateXor ← keccakStateXor state blockState
      permutation stateXor rc) st = (.ok sp, stC) := by
    rw [bind_ok (massert_run_pos _ _ st hmassert), bind_ok hA, bind_ok hB]
    exact hC
  rw [hrun] at hbody
  simp only [Prod.mk.injEq, Except.ok.injEq] at hbody
  obtain ⟨-, h2⟩ := hbody
  subst h2
  exact permutation_constrains rc sx stB sp st' hC

/-- Run of `absorb` under the parameter conditions the facade establishes:
it succeeds, computes the value-level absorb, only adds constraints, and —
since there is at least one block — leaves a constraint for every variable
of every round constant. -/
theorem absorb_rc (padded : List CV) (capacity rate : Nat) (rc : List CV)
    (hk : rate / 8 ≠ 0)
    (hdvd : (rate / 8) ∣ padded.length)
    (hsum : rate / 8 + capacity / 8 = 200)
    (hne : padded ≠ []) :
    ∀ st, ∃ r st', absorb padded capacity rate rc st = (.ok r, st') ∧
      vals r = absorbV (bvals padded) capacity rate (bvals rc) ∧
      ExtC st st' ∧
      ∀ cv ∈ rc, ∀ v ∈ cv.vars, ∃ cst ∈ st'.constraints, v ∈ cst := by
  intro st
  have hblock := splitBlocks_length_mem hk padded.length padded (le_refl _) hdvd
  have habsV : absorbV (bvals padded) capacity rate (bvals rc) =
      (splitBlocks (rate / 8) padded).foldl
        (fun stv bl => permutationV (stateXorV stv
          (stateOfBytesV (bvals bl ++ List.replicate (capacity / 8) 0))) (bvals rc))
        zerosV := by
    rw [absorbV]
    have hmap := splitBlocks_map (k := rate / 8) CV.val padded.length padded (le_refl _)
    simp only [bvals]
    rw [hmap, List.foldl_map]
  obtain ⟨bl, rest, hbl⟩ := List.exists_cons_of_ne_nil hne
  subst hbl
  rw [splitBlocks_cons _ hk] at hblock habsV
  have hstep := fun (b : KState) (hI : VDims (vals b)) (a : List CV)
      (ha : a ∈ (bl :: rest).take (rate / 8) :: splitBlocks (rate / 8) ((bl :: rest).drop (rate / 8))) =>
    absorbStep_run capacity rate rc b a (hblock a ha) hsum hI
  -- first block
  obtain ⟨s₁, st₁, h1, hpost1, hext1⟩ :=
    hstep getKeccakStateZeros (by rw [vals_zeros]; exact VDims_zerosV)
      ((bl :: rest).take (rate / 8)) (by simp) st
  -- remaining blocks
  obtain ⟨r, st₂, h2, hpost2, hext2⟩ :=
    (simC_foldlML_inv (V := vals)
      (g := fun stv a => permutationV (stateXorV stv
        (stateOfBytesV (bvals a ++ List.replicate (capacity / 8) 0))) (bvals rc))
      (I := VDims)
      (splitBlocks (rate / 8) ((bl :: rest).drop (rate / 8)))
      (fun b hI a ha => hstep b hI a (List.mem_cons_of_mem _ ha)) s₁ hpost1.2) st₁
  refine ⟨r, st₂, ?_, ?_, hext1.transC hext2, ?_⟩
  · show (absorb (bl :: rest) capacity rate rc) st = _
    have habseq : absorb (bl :: rest) capacity rate rc =
        foldlML (fun state block => do
          let paddedBlock := block ++ List.replicate (capacity / 8) (fieldFrom 0)
          massert (paddedBlock.length * 8 = KECCAK_STATE_LENGTH) "improper Keccak block length"
          let blockState ← getKeccakStateOfBytes paddedBlock
          let stateXor ← keccakStateXor state blockState
          permutation stateXor rc)
          getKeccakStateZeros (splitBlocks (rate / 8) (bl :: rest)) := by
      simp only [absorb]
    rw [habseq, splitBlocks_cons _ hk]
    have hunfold : foldlML (fun state block => do
          let paddedBlock := block ++ List.replicate (capacity / 8) (fieldFrom 0)
          massert (paddedBlock.length * 8 = KECCAK_STATE_LENGTH) "improper Keccak block length"
          let blockState ← getKeccakStateOfBytes paddedBlock
          let stateXor ← keccakStateXor state blockState
          permutation stateXor rc)
          getKeccakStateZeros
          ((bl :: rest).take (rate / 8) :: splitBlocks (rate / 8) ((bl :: rest).drop (rate / 8))) =
        ((do
          let paddedBlock := (bl :: rest).take (rate / 8) ++
            List.replicate (capacity / 8) (fieldFrom 0)
          massert (paddedBlock.length * 8 = KECCAK_STATE_LENGTH) "improper Keccak block length"
          let blockState ← getKeccakStateOfBytes paddedBlock
          let stateXor ← keccakStateXor getKeccakStateZeros blockState
          permutation stateXor rc) >>= fun y =>
          foldlML (fun state block => do
            let paddedBlock := block ++ List.replicate (capacity / 8) (fieldFrom 0)
            massert (paddedBlock.length * 8 = KECCAK_STATE_LENGTH) "improper Keccak block length"
            let blockState ← getKeccakStateOfBytes paddedBlock
            let stateXor ← keccakStateXor state blockState
            permutation stateXor rc) y
            (splitBlocks (rate / 8) ((bl :: rest).drop (rate / 8)))) := by
      simp only [foldlML]
    rw [hunfold, bind_ok h1, h2]
  · rw [hpost2.1, hpost1.1, habsV, List.foldl_cons, vals_zeros]
  · intro cv hcv v hv
    have hfirst := absorbStep_constrains capacity rate rc getKeccakStateZeros
      ((bl :: rest).take (rate / 8)) (hblock _ (by simp)) hsum
      (by rw [vals_zeros]; exact VDims_zerosV) st s₁ st₁ h1 cv hcv v hv
    obtain ⟨cst, hcst, hvc⟩ := hfirst
    exact ⟨cst, hext2.1 cst hcst, hvc⟩


/-! ## Squeeze and sponge -/

/-- Run of `squeeze`: always succeeds, computes the value-level squeeze, and
constrains every witness it declares (those of its byte extractions). -/
theorem squeeze_run (s : KState) (length rate : Nat) (rc : List CV) :
    SimW (squeeze s length rate rc)
      (fun out => bvals out = squeezeV (vals s) length rate (bvals rc)) := by
  refine SimW.bindW (keccakStateToBytes_run s) (fun bytestring hbs => ?_)
  refine SimW.bindW (SimW.foldW (V := fun acc => (vals acc.1, bvals acc.2))
    (g := fun p i => (permutationV p.1 (bvals rc),
      copyListV ((stateToBytesV (vals s)).take (rate / 8)) p.2
        ((rate / 8) * (i + 1)) (rate / 8)))
    (List.range (length / rate + 1 - 1)) (fun b i hi => ?_) _) (fun res hres => ?_)
  · refine SimW.bindW (permutation_run b.1 rc).toSimW (fun ns hns => ?_)
    refine SimW.bindW (keccakStateToBytes_run s) (fun bsI hbsI => ?_)
    refine (SimC.pure _ ?_).toSimW
    show (vals ns, bvals (copyList (bsI.take (rate / 8)) b.2 _ _)) = _
    rw [hns, bvals_copyList, bvals_take, hbsI.1]
  · refine (SimC.pure _ ?_).toSimW
    rw [squeezeV, bvals_take]
    have hsnd := congrArg Prod.snd hres
    simp only at hsnd
    rw [hsnd]
    have hfst : bvals (copyList (bytestring.take (rate / 8))
        (List.replicate ((length / rate + 1) * (rate / 8)) (fieldFrom 0)) 0 (rate / 8)) =
        copyListV ((stateToBytesV (vals s)).take (rate / 8))
          (List.replicate ((length / rate + 1) * (rate / 8)) 0) 0 (rate / 8) := by
      rw [bvals_copyList, bvals_take, hbs.1, bvals_replicate_zero]
    rw [hfst]

theorem checkBytes_run (inputs : List CV) : SimC (checkBytes inputs) (fun _ => True) :=
  SimC.forML _ (fun a _ => SimC.grangeCheck8 a)

/-- Run of `sponge` under the facade's parameter conditions: it succeeds,
computes the value-level sponge, and every witness it declares — the 24
round constants via `exists` and all byte extractions — ends up constrained. -/
theorem sponge_run (padded : List CV) (length capacity rate : Nat)
    (hmul : (padded.length * 8) % rate = 0)
    (hk : rate / 8 ≠ 0)
    (hdvd : (rate / 8) ∣ padded.length)
    (hsum : rate / 8 + capacity / 8 = 200)
    (hne : padded ≠ []) :
    SimW (sponge padded length capacity rate)
      (fun out => bvals out = spongeV (bvals padded) length capacity rate) := by
  intro st
  have hex := existsMany_run ROUND_CONSTANTS st
  have hbvRC : bvals (((List.range' st.nextVar ROUND_CONSTANTS.length).zip
      ROUND_CONSTANTS).map (fun p => (⟨p.2, [p.1]⟩ : CV))) = ROUND_CONSTANTS := by
    have hb := bvals_zip_range' ROUND_CONSTANTS st.nextVar (fun c => c)
    have hid : ROUND_CONSTANTS.map (fun c => c) = ROUND_CONSTANTS := by
      simp
    rw [← hid]
    exact hb
  have hvars := mem_vars_zip_range' ROUND_CONSTANTS st.nextVar
  generalize hRCeq : ((List.range' st.nextVar ROUND_CONSTANTS.length).zip
      ROUND_CONSTANTS).map (fun p => (⟨p.2, [p.1]⟩ : CV)) = RC at hex hbvRC hvars
  obtain ⟨as, st₂, hA, hAv, hAext, hArc⟩ := absorb_rc padded capacity rate RC hk hdvd hsum hne
    { st with
      nextVar := st.nextVar + ROUND_CONSTANTS.length,
      witnessed := (List.range' st.nextVar ROUND_CONSTANTS.length).reverse ++ st.witnessed }
  obtain ⟨out, st₃, hS, hSv, hSext⟩ := squeeze_run as length rate RC st₂
  refine ⟨out, st₃, ?_, ?_, ?_, ?_⟩
  · show (massert _ _ >>= fun _ => existsMany ROUND_CONSTANTS >>= fun rc =>
      absorb padded capacity rate rc >>= fun state => squeeze state length rate rc) st = _
    rw [bind_ok (massert_run_pos _ _ st hmul), bind_ok hex, bind_ok hA]
    exact hS
  · show bvals out = spongeV (bvals padded) length capacity rate
    rw [hSv, hAv, hbvRC, spongeV]
  · intro c hc
    exact hSext.1 c (hAext.1 c hc)
  · intro w hw
    rcases hSext.2 w hw with hw2 | hw2
    · rw [hAext.2] at hw2
      simp only [List.mem_append, List.mem_reverse] at hw2
      rcases hw2 with hw3 | hw3
      · obtain ⟨cv, hcv, hwcv⟩ := hvars w hw3
        obtain ⟨cst, hcst, hvc⟩ := hArc cv hcv w hwcv
        exact Or.inr ⟨cst, hSext.1 cst hcst, hvc⟩
      · exact Or.inl hw3
    · exact Or.inr hw2


/-! ## Hash facade -/

theorem padNist_length (m : List CV) (r : Nat) :
    (padNist m r).length = m.length + bytesToPad r m.length := by
  simp [padNist]

theorem pad101_length (m : List CV) (r : Nat) :
    (pad101 m r).length = m.length + bytesToPad r m.length := by
  simp [pad101]

/-- Arithmetic facts about a padded message: the padding fills whole
rate-blocks and adds at least one byte. -/
theorem pad_facts (rateN L padL : Nat) (hk0 : 0 < rateN / 8) (h8 : 8 ∣ rateN)
    (hpadL : padL = L + bytesToPad rateN L) :
    (rateN / 8) ∣ padL ∧ padL * 8 % rateN = 0 ∧ 0 < padL := by
  obtain ⟨k, rfl⟩ := h8
  have hdiv : 8 * k / 8 = k := by omega
  rw [hdiv] at hk0
  rw [bytesToPad, hdiv] at hpadL
  have hmod := Nat.div_add_mod L k
  have hlt : L % k < k := Nat.mod_lt _ hk0
  have hms : k * (L / k + 1) = k * (L / k) + k := by ring
  have heq : padL = k * (L / k + 1) := by
    rw [hpadL, hms]
    omega
  have hge : 0 < k * (L / k + 1) := Nat.mul_pos hk0 (Nat.succ_pos _)
  refine ⟨?_, ?_, by omega⟩
  · rw [hdiv]
    exact ⟨L / k + 1, heq⟩
  · rw [heq, show k * (L / k + 1) * 8 = 8 * k * (L / k + 1) from by ring]
    exact Nat.mul_mod_right _ _

/-- Run of the hash facade after validation: optional input byte checks,
padding, sponge, output byte checks, output byte order. -/
theorem hashTail_run (oe : Endian) (bc : Bool) (mf : List CV) (lenN capN : Nat)
    (hcap0 : 0 < capN) (hcap1600 : capN < 1600) (hcap8 : 8 ∣ capN) (nist : Bool) :
    SimW (do
      if bc then checkBytes mf else pure ()
      let rate : Nat := KECCAK_STATE_LENGTH - capN
      let padded := if nist then padNist mf rate else pad101 mf rate
      let h ← sponge padded lenN capN rate
      checkBytes h
      pure (match oe with | Endian.Big => h | Endian.Little => h.reverse))
      (fun out => bvals out = (match oe with
        | Endian.Big => spongeV (if nist then padNistV (bvals mf) (KECCAK_STATE_LENGTH - capN)
            else pad101V (bvals mf) (KECCAK_STATE_LENGTH - capN)) lenN capN
            (KECCAK_STATE_LENGTH - capN)
        | Endian.Little => (spongeV (if nist then padNistV (bvals mf) (KECCAK_STATE_LENGTH - capN)
            else pad101V (bvals mf) (KECCAK_STATE_LENGTH - capN)) lenN capN
            (KECCAK_STATE_LENGTH - capN)).reverse)) := by
  have hKSL : KECCAK_STATE_LENGTH = 1600 := rfl
  have hk0 : 0 < (KECCAK_STATE_LENGTH - capN) / 8 := by rw [hKSL]; omega
  have h8r : 8 ∣ (KECCAK_STATE_LENGTH - capN) := by rw [hKSL]; omega
  have hsum : (KECCAK_STATE_LENGTH - capN) / 8 + capN / 8 = 200 := by rw [hKSL]; omega
  have hplen : (if nist then padNist mf (KECCAK_STATE_LENGTH - capN)
      else pad101 mf (KECCAK_STATE_LENGTH - capN)).length =
      mf.length + bytesToPad (KECCAK_STATE_LENGTH - capN) mf.length := by
    cases nist
    · simp [pad101_length]
    · simp [padNist_length]
  obtain ⟨hdvd, hmul, hpos⟩ := pad_facts (KECCAK_STATE_LENGTH - capN) mf.length _ hk0 h8r hplen
  have hne : (if nist then padNist mf (KECCAK_STATE_LENGTH - capN)
      else pad101 mf (KECCAK_STATE_LENGTH - capN)) ≠ [] := List.length_pos.mp hpos
  have hpv : bvals (if nist then padNist mf (KECCAK_STATE_LENGTH - capN)
      else pad101 mf (KECCAK_STATE_LENGTH - capN)) =
      (if nist then padNistV (bvals mf) (KECCAK_STATE_LENGTH - capN)
        else pad101V (bvals mf) (KECCAK_STATE_LENGTH - capN)) := by
    cases nist
    · simp [bvals_pad101]
    · simp [bvals_padNist]
  have hrest : SimW ((sponge (if nist then padNist mf (KECCAK_STATE_LENGTH - capN)
      else pad101 mf (KECCAK_STATE_LENGTH - capN)) lenN capN (KECCAK_STATE_LENGTH - capN)) >>=
      fun h => checkBytes h >>= fun _ =>
        pure (match oe with | Endian.Big => h | Endian.Little => h.reverse))
      (fun out => bvals out = (match oe with
        | Endian.Big => spongeV (if nist then padNistV (bvals mf) (KECCAK_STATE_LENGTH - capN)
            else pad101V (bvals mf) (KECCAK_STATE_LENGTH - capN)) lenN capN
            (KECCAK_STATE_LENGTH - capN)
        | Endian.Little => (spongeV (if nist then padNistV (bvals mf) (KECCAK_STATE_LENGTH - capN)
            else pad101V (bvals mf) (KECCAK_STATE_LENGTH - capN)) lenN capN
            (KECCAK_STATE_LENGTH - capN)).reverse)) := by
    refine SimW.bindW (sponge_run _ lenN capN (KECCAK_STATE_LENGTH - capN)
      hmul (by omega) hdvd hsum hne) (fun h hv => ?_)
    refine SimW.bindW (checkBytes_run h).toSimW (fun _ _ => ?_)
    refine (SimC.pure _ ?_).toSimW
    show bvals (match oe with | Endian.Big => h | Endian.Little => h.reverse) = _
    cases oe
    · rw [hv, hpv]
    · rw [bvals_reverse, hv, hpv]
  cases bc
  · exact SimW.bindW (SimC.pure (P := fun _ => True) () trivial).toSimW (fun _ _ => hrest)
  · exact SimW.bindW (checkBytes_run mf).toSimW (fun _ _ => hrest)

/-- Run of `hash` with valid parameters: it succeeds, computes the
value-level hash, and every witness declared during construction is
constrained. -/
theorem hash_run (ie oe : Endian) (bc : Bool) (msg : List CV) (len cap : Int) (nist : Bool)
    (h1 : 0 < cap) (h2 : cap < 1600) (h3 : (8 : Int) ∣ cap) (h4 : 0 < len)
    (h5 : len % 8 = 0) :
    SimW (hash ie oe bc msg len cap nist)
      (fun out => bvals out = hashV ie oe (bvals msg) len.toNat cap.toNat nist) := by
  have hcap0 : 0 < cap.toNat := by omega
  have hcap1600 : cap.toNat < 1600 := by omega
  have hcap8 : 8 ∣ cap.toNat := by omega
  refine SimW.bindW (SimC.massert _ _ h1).toSimW (fun _ _ => ?_)
  refine SimW.bindW (SimC.massert _ _ h2).toSimW (fun _ _ => ?_)
  refine SimW.bindW (SimC.massert _ _ h4).toSimW (fun _ _ => ?_)
  refine SimW.bindW (SimC.massert _ _ h5).toSimW (fun _ _ => ?_)
  refine (hashTail_run oe bc (match ie with | Endian.Big => msg | Endian.Little => msg.reverse)
    len.toNat cap.toNat hcap0 hcap1600 hcap8 nist).monoW (fun out hout => ?_)
  rw [hout]
  cases ie <;> cases oe <;> simp [hashV, bvals_reverse]

/-- Run of `hash` with an invalid capacity or output length: it aborts with
an error before touching the builder state. -/
theorem hash_invalid (ie oe : Endian) (bc : Bool) (msg : List CV) (len cap : Int)
    (nist : Bool) (st : BState)
    (hbad : cap ≤ 0 ∨ 1600 ≤ cap ∨ len ≤ 0 ∨ ¬ (8 : Int) ∣ len) :
    ∃ e, hash ie oe bc msg len cap nist st = (.error e, st) := by
  by_cases hc1 : 0 < cap
  · by_cases hc2 : cap < 1600
    · by_cases hc3 : 0 < len
      · have hmod : ¬ (len % 8 = 0) := by
          have hnd : ¬ (8 : Int) ∣ len := by
            rcases hbad with h | h | h | h
            · omega
            · omega
            · omega
            · exact h
          intro h0
          exact hnd (Int.dvd_of_emod_eq_zero h0)
        refine ⟨"length must be a multiple of 8", ?_⟩
        unfold hash
        rw [bind_ok (massert_run_pos _ _ st hc1), bind_ok (massert_run_pos _ _ st hc2),
          bind_ok (massert_run_pos _ _ st hc3)]
        rw [bind_error (massert_run_neg _ _ st hmod)]
      · refine ⟨"length must be positive", ?_⟩
        unfold hash
        rw [bind_ok (massert_run_pos _ _ st hc1), bind_ok (massert_run_pos _ _ st hc2)]
        rw [bind_error (massert_run_neg _ _ st hc3)]
    · refine ⟨"capacity must be less than 1600", ?_⟩
      unfold hash
      rw [bind_ok (massert_run_pos _ _ st hc1)]
      rw [bind_error (massert_run_neg _ _ st hc2)]
  · refine ⟨"capacity must be positive", ?_⟩
    unfold hash
    rw [bind_error (massert_run_neg _ _ st hc1)]

/-! ## Pure round-trip of the byte codec -/

theorem getD_map_range {β : Type} (n : Nat) (g : Nat → β) (d : β) (x : Nat) (hx : x < n) :
    ((List.range n).map g).getD x d = g x := by
  rw [List.getD_eq_getElem _ _ (by simpa using hx)]
  simp

/-- Reading a lane of the state built from a byte list. -/
theorem vget_stateOfBytesV (b : List Nat) (x y : Nat) (hx : x < 5) (hy : y < 5) :
    vget (stateOfBytesV b) x y =
      (List.range 8).foldl (fun acc z =>
        addP acc (mulP (2 ^ (8 * z) % FIELD_P) (b.getD (8 * (5 * y + x) + z) 0))) 0 := by
  show (((List.range 5).map fun x => (List.range 5).map fun y =>
      (List.range 8).foldl (fun acc z =>
        addP acc (mulP (2 ^ (8 * z) % FIELD_P) (b.getD (8 * (5 * y + x) + z) 0))) 0).getD
      x []).getD y 0 = _
  rw [getD_map_range 5 _ _ x hx, getD_map_range 5 _ _ y hy]

/-- Extracting byte `z` back out of the weighted recomposition of eight bytes. -/
theorem word_byte_extract (v0 v1 v2 v3 v4 v5 v6 v7 z : Nat)
    (h0 : v0 < 256) (h1 : v1 < 256) (h2 : v2 < 256) (h3 : v3 < 256)
    (h4 : v4 < 256) (h5 : v5 < 256) (h6 : v6 < 256) (h7 : v7 < 256) (hz : z < 8) :
    ((addP (addP (addP (addP (addP (addP (addP (addP 0
        (mulP (2 ^ (8 * 0) % FIELD_P) v0))
        (mulP (2 ^ (8 * 1) % FIELD_P) v1))
        (mulP (2 ^ (8 * 2) % FIELD_P) v2))
        (mulP (2 ^ (8 * 3) % FIELD_P) v3))
        (mulP (2 ^ (8 * 4) % FIELD_P) v4))
        (mulP (2 ^ (8 * 5) % FIELD_P) v5))
        (mulP (2 ^ (8 * 6) % FIELD_P) v6))
        (mulP (2 ^ (8 * 7) % FIELD_P) v7)) >>> (8 * z)) &&& 255
      = [v0, v1, v2, v3, v4, v5, v6, v7].getD z 0 := by
  have hchain : (addP (addP (addP (addP (addP (addP (addP (addP 0
        (mulP (2 ^ (8 * 0) % FIELD_P) v0))
        (mulP (2 ^ (8 * 1) % FIELD_P) v1))
        (mulP (2 ^ (8 * 2) % FIELD_P) v2))
        (mulP (2 ^ (8 * 3) % FIELD_P) v3))
        (mulP (2 ^ (8 * 4) % FIELD_P) v4))
        (mulP (2 ^ (8 * 5) % FIELD_P) v5))
        (mulP (2 ^ (8 * 6) % FIELD_P) v6))
        (mulP (2 ^ (8 * 7) % FIELD_P) v7))
      = v0 + 256 * v1 + 65536 * v2 + 16777216 * v3 + 4294967296 * v4 +
        1099511627776 * v5 + 281474976710656 * v6 + 72057594037927936 * v7 := by
    simp only [addP, mulP, FIELD_P]
    norm_num
    omega
  rw [hchain, Nat.shiftRight_eq_div_pow]
  rw [show (255 : Nat) = 2 ^ 8 - 1 from rfl, Nat.and_pow_two_sub_one_eq_mod]
  interval_cases z <;> norm_num <;> omega

/-- Shifting and masking recovers each byte of a lane built from bytes. -/
theorem lane_roundtrip (b : List Nat) (hb : ∀ v ∈ b, v < 256) (base z : Nat) (hz : z < 8) :
    (((List.range 8).foldl (fun acc t =>
        addP acc (mulP (2 ^ (8 * t) % FIELD_P) (b.getD (base + t) 0))) 0) >>> (8 * z)) &&& 255
      = b.getD (base + z) 0 := by
  have hbd : ∀ t : Nat, b.getD (base + t) 0 < 256 := by
    intro t
    rcases Nat.lt_or_ge (base + t) b.length with h | h
    · rw [List.getD_eq_getElem _ _ h]
      exact hb _ (List.getElem_mem h)
    · rw [List.getD_eq_default _ _ h]
      omega
  have hrg : List.range 8 = [0, 1, 2, 3, 4, 5, 6, 7] := rfl
  rw [hrg]
  simp only [List.foldl_cons, List.foldl_nil]
  have hout : ([b.getD (base + 0) 0, b.getD (base + 1) 0, b.getD (base + 2) 0,
      b.getD (base + 3) 0, b.getD (base + 4) 0, b.getD (base + 5) 0,
      b.getD (base + 6) 0, b.getD (base + 7) 0].getD z 0) = b.getD (base + z) 0 := by
    interval_cases z <;> rfl
  rw [← hout]
  exact word_byte_extract _ _ _ _ _ _ _ _ z (hbd 0) (hbd 1) (hbd 2) (hbd 3) (hbd 4)
    (hbd 5) (hbd 6) (hbd 7) hz

/-- The byte codec round-trips on any 200-entry list of byte values. -/
theorem stateRoundTripV (b : List Nat) (hlen : b.length = 200) (hb : ∀ v ∈ b, v < 256) :
    stateToBytesV (stateOfBytesV b) = b := by
  have hsl : (stateToBytesV (stateOfBytesV b)).length = 200 := by
    rw [stateToBytesV, List.length_map, List.length_range]
    decide
  refine List.ext_getElem (by rw [hsl, hlen]) (fun i hi1 hi2 => ?_)
  have hi200 : i < 200 := by rw [hlen] at hi2; exact hi2
  simp only [stateToBytesV, List.getElem_map, List.getElem_range]
  show (vget (stateOfBytesV b) (i / 8 % 5) (i / 8 / 5) >>> (8 * (i % 8))) &&& 255 = b[i]
  rw [vget_stateOfBytesV b (i / 8 % 5) (i / 8 / 5) (by omega) (by omega)]
  rw [lane_roundtrip b hb (8 * (5 * (i / 8 / 5) + i / 8 % 5)) (i % 8) (by omega)]
  have hidx : 8 * (5 * (i / 8 / 5) + i / 8 % 5) + i % 8 = i := by omega
  rw [hidx, List.getD_eq_getElem _ _ hi2]

/-! ## Single-block and single-squeeze evaluation helpers -/

/-- A nonempty list of at most one block splits into that single block. -/
theorem splitBlocks_single {k : Nat} (hk : k ≠ 0) (l : List α) (hne : l ≠ [])
    (hlen : l.length ≤ k) : splitBlocks k l = [l] := by
  cases l with
  | nil => exact absurd rfl hne
  | cons x xs =>
    rw [splitBlocks_cons k hk]
    rw [List.take_of_length_le hlen, List.drop_eq_nil_of_le hlen]
    rw [splitBlocks_nil]

/-- Absorbing a message of a single rate-block. -/
theorem absorbV_single (b : List Nat) (capacity rate : Nat) (rc : List Nat)
    (hk : rate / 8 ≠ 0) (hne : b ≠ []) (hlen : b.length ≤ rate / 8) :
    absorbV b capacity rate rc =
      permutationV (stateXorV zerosV
        (stateOfBytesV (b ++ List.replicate (capacity / 8) 0))) rc := by
  rw [absorbV, splitBlocks_single hk b hne hlen, List.foldl_cons, List.foldl_nil]

/-- Writing a prefix into a fresh array keeps the prefix and the tail. -/
theorem copyListV_fill (bs arr : List Nat) (n : Nat) (hn : n ≤ bs.length)
    (hlen : n ≤ arr.length) :
    copyListV bs arr 0 n = bs.take n ++ arr.drop n := by
  induction n with
  | zero => simp [copyListV]
  | succ m ih =>
    have hmb : m < bs.length := by omega
    have hma : m < arr.length := by omega
    have hstep : copyListV bs arr 0 (m + 1) =
        (copyListV bs arr 0 m).set (0 + m) (bs.getD m 0) := by
      rw [copyListV, copyListV, List.range_succ, List.foldl_append, List.foldl_cons,
        List.foldl_nil]
    rw [hstep, ih (by omega) (by omega), Nat.zero_add]
    rw [List.set_append_right _ _ (by rw [List.length_take]; omega)]
    rw [List.length_take, List.drop_eq_getElem_cons hma]
    have hmin : m - min m bs.length = 0 := by omega
    rw [hmin, List.set_cons_zero, List.getD_eq_getElem _ _ hmb]
    rw [← List.singleton_append, ← List.append_assoc]
    congr 1
    rw [List.take_succ]
    simp [List.getElem?_eq_getElem hmb]

/-- When the requested output is below the rate there is a single squeeze:
the digest is a prefix of the bytes of the entering state. -/
theorem squeezeV_single (s : VState) (length rate : Nat) (rc : List Nat)
    (hlr : length < rate) (hle : length / 8 ≤ rate / 8) (hrate : rate / 8 ≤ 200) :
    squeezeV s length rate rc = (stateToBytesV s).take (length / 8) := by
  have hstb : (stateToBytesV s).length = 200 := by
    rw [stateToBytesV, List.length_map, List.length_range]
    decide
  have h1 : length / rate = 0 := Nat.div_eq_of_lt hlr
  simp only [squeezeV, h1, Nat.zero_add, Nat.sub_self, List.range_zero, List.foldl_nil]
  rw [copyListV_fill _ _ _ (by rw [List.length_take]; omega)
    (by rw [List.length_replicate]; omega)]
  rw [List.drop_eq_nil_of_le (by rw [List.length_replicate]; omega), List.append_nil]
  rw [List.take_take, List.take_take]
  congr 1
  omega

/-- With big-endian output and a single squeeze, the digest of the hash is a
prefix of the bytes of the post-absorb state. -/
theorem hashV_big_single (ie : Endian) (m : List Nat) (len cap : Nat) (nist : Bool)
    (hlr : len < KECCAK_STATE_LENGTH - cap)
    (hle : len / 8 ≤ (KECCAK_STATE_LENGTH - cap) / 8)
    (hrate : (KECCAK_STATE_LENGTH - cap) / 8 ≤ 200) :
    hashV ie .Big m len cap nist =
      (stateToBytesV (absorbV
        (if nist then
          padNistV (match ie with | Endian.Big => m | Endian.Little => m.reverse)
            (KECCAK_STATE_LENGTH - cap)
        else
          pad101V (match ie with | Endian.Big => m | Endian.Little => m.reverse)
            (KECCAK_STATE_LENGTH - cap))
        cap (KECCAK_STATE_LENGTH - cap) ROUND_CONSTANTS)).take (len / 8) := by
  simp only [hashV, spongeV]
  rw [squeezeV_single _ _ _ _ hlr hle hrate]

set_option maxRecDepth 10000 in
/-- Evaluation of the value-level hash of the empty message with the legacy
padding and capacity 512. -/
theorem hashV_empty_eval : hashV .Big .Big [] 256 512 false = EMPTY_DIGEST := by
  have hone : absorbV (pad101V [] (KECCAK_STATE_LENGTH - 512)) 512
      (KECCAK_STATE_LENGTH - 512) ROUND_CONSTANTS =
      permutationV (stateXorV zerosV
        (stateOfBytesV (pad101V [] (KECCAK_STATE_LENGTH - 512) ++
          List.replicate (512 / 8) 0))) ROUND_CONSTANTS :=
    absorbV_single _ _ _ _ (by decide) (by decide) (by decide)
  simp only [hashV, spongeV, Bool.false_eq_true, if_false]
  rw [hone]
  decide

/-- Digest shape of a single-squeeze instantiation of the facade with
big-endian output. -/
theorem variant_digest (ie : Endian) (bc : Bool) (msg : List CV) (len cap : Int)
    (nist : Bool)
    (h1 : 0 < cap) (h2 : cap < 1600) (h3 : (8 : Int) ∣ cap) (h4 : 0 < len)
    (h5 : len % 8 = 0)
    (hlr : len.toNat < KECCAK_STATE_LENGTH - cap.toNat)
    (hle : len.toNat / 8 ≤ (KECCAK_STATE_LENGTH - cap.toNat) / 8)
    (hrate : (KECCAK_STATE_LENGTH - cap.toNat) / 8 ≤ 200) :
    SimW (hash ie .Big bc msg len cap nist)
      (fun out => bvals out = (stateToBytesV (absorbV
        (if nist then
          padNistV (fmtV ie (bvals msg)) (KECCAK_STATE_LENGTH - cap.toNat)
        else
          pad101V (fmtV ie (bvals msg)) (KECCAK_STATE_LENGTH - cap.toNat))
        cap.toNat (KECCAK_STATE_LENGTH - cap.toNat) ROUND_CONSTANTS)).take
          (len.toNat / 8)) := by
  refine (hash_run ie .Big bc msg len cap nist h1 h2 h3 h4 h5).monoW (fun out hout => ?_)
  rw [hout, hashV_big_single ie (bvals msg) len.toNat cap.toNat nist hlr hle hrate]
  rfl

/-! ## Claim theorems -/

/-- C1: every value declared as a witness during circuit construction of a
hash (via existsOne or exists) — the 24 round constants declared by sponge
and the bytes declared by keccakStateToBytes among them — is later subjected
to at least one constraint: a successful run of the hash facade from a
builder state whose witnesses are all constrained (with the capacity a
multiple of 8, as in every public instantiation) ends in a builder state
whose witnesses are all constrained. -/
theorem C1_hash_witnesses_constrained (ie oe : Endian) (bc : Bool) (msg : List CV)
    (len cap : Int) (nist : Bool) (st : BState)
    (hcap8 : (8 : Int) ∣ cap) (hW : WitnessedConstrained st) :
    ∀ out st', hash ie oe bc msg len cap nist st = (.ok out, st') →
      WitnessedConstrained st' := by
  intro out st' hrun
  by_cases hval : 0 < cap ∧ cap < 1600 ∧ 0 < len ∧ (8 : Int) ∣ len
  · obtain ⟨h1, h2, h4, h5d⟩ := hval
    have h5 : len % 8 = 0 := Int.emod_eq_zero_of_dvd h5d
    obtain ⟨hP, hE⟩ := (hash_run ie oe bc msg len cap nist h1 h2 hcap8 h4 h5).of_runW hrun
    exact hW.of_extW hE
  · have hbad : cap ≤ 0 ∨ 1600 ≤ cap ∨ len ≤ 0 ∨ ¬ (8 : Int) ∣ len := by
      by_contra hno
      push_neg at hno
      exact hval ⟨hno.1, hno.2.1, hno.2.2.1, hno.2.2.2⟩
    obtain ⟨e, he⟩ := hash_invalid ie oe bc msg len cap nist st hbad
    rw [hrun] at he
    simp at he

/-- Witness for C1: the ethereum instantiation from the clean builder state. -/
theorem C1_hash_witnesses_constrained_witness :
    ((8 : Int) ∣ 512 ∧ WitnessedConstrained cleanBS) ∧
    (∀ out st', hash .Big .Big false [] 256 512 false cleanBS = (.ok out, st') →
      WitnessedConstrained st') := by
  have hW : WitnessedConstrained cleanBS := by
    intro w hw
    simp [cleanBS] at hw
  exact ⟨⟨⟨64, by norm_num⟩, hW⟩,
    C1_hash_witnesses_constrained .Big .Big false [] 256 512 false cleanBS
      ⟨64, by norm_num⟩ hW⟩

set_option maxRecDepth 10000 in
/-- C2: the source's squeeze does not extract later chunks from the freshly
permuted state — it re-extracts from its unchanged state argument.  On the
all-zero state with rate 8 and requested length 16 the run returns the bytes
[0, 0], while the first rate/8 bytes of the state after one application of
the permutation driver are [231]: the second chunk mandated by the claim
would be 231, not 0. -/
theorem C2_squeeze_ignores_permuted_state :
    SimW (squeeze getKeccakStateZeros 16 8 (ROUND_CONSTANTS.map fieldFrom))
      (fun out => bvals out = [0, 0]) ∧
    (stateToBytesV (permutationV zerosV ROUND_CONSTANTS)).take (8 / 8) = [231] := by
  constructor
  · refine (squeeze_run getKeccakStateZeros 16 8 _).monoW (fun out hout => ?_)
    rw [hout, vals_zeros]
    rw [show bvals (ROUND_CONSTANTS.map fieldFrom) = ROUND_CONSTANTS from by decide]
    decide
  · decide

/-- C3: converting a list of 200 byte values to a state and back through the
codec is the identity on the carried values (and every byte witness it
declares is constrained). -/
theorem C3_codec_roundtrip (bs : List CV) (hlen : bs.length = 200)
    (hb : ∀ v ∈ bs, v.val < 256) :
    SimW (getKeccakStateOfBytes bs >>= fun s => keccakStateToBytes s)
      (fun out => bvals out = bvals bs) := by
  refine SimW.bindW (getKeccakStateOfBytes_run bs hlen).toSimW (fun s hs => ?_)
  refine (keccakStateToBytes_run s).monoW (fun out hout => ?_)
  rw [hout.1, hs]
  refine stateRoundTripV _ (by rw [bvals_length, hlen]) ?_
  intro v hv
  simp only [bvals] at hv
  obtain ⟨cv, hcv, rfl⟩ := List.mem_map.mp hv
  exact hb cv hcv

set_option maxRecDepth 10000 in
/-- Witness for C3: the all-zero byte list. -/
theorem C3_codec_roundtrip_witness :
    ((List.replicate 200 (fieldFrom 0)).length = 200 ∧
      (∀ v ∈ List.replicate 200 (fieldFrom 0), v.val < 256)) ∧
    SimW (getKeccakStateOfBytes (List.replicate 200 (fieldFrom 0)) >>= fun s =>
        keccakStateToBytes s)
      (fun out => bvals out = bvals (List.replicate 200 (fieldFrom 0))) := by
  have hb : ∀ v ∈ List.replicate 200 (fieldFrom 0), v.val < 256 := by
    intro v hv
    rw [List.eq_of_mem_replicate hv]
    decide
  exact ⟨⟨by simp, hb⟩, C3_codec_roundtrip _ (by simp) hb⟩

/-- C4: the permutation driver left-folds the state through `round`, one
round per round constant; there are exactly 24 round constants and
KECCAK_ROUNDS is 24; one round is theta, then the fused rho/pi, then chi,
then iota — also at the value level. -/
theorem C4_permutation_rounds :
    KECCAK_ROUNDS = 24 ∧ ROUND_CONSTANTS.length = 24 ∧
    (∀ s : KState, permutation s [] = pure s) ∧
    (∀ s : KState, ∀ c : CV, ∀ rest : List CV,
      permutation s (c :: rest) = round s c >>= fun r => permutation r rest) ∧
    (∀ s : KState, ∀ c : CV,
      round s c = theta s >>= fun e => piRho e >>= fun b => chi b >>= fun f => iota f c) ∧
    (∀ v : VState, ∀ rc : List Nat, permutationV v rc = rc.foldl roundV v) ∧
    (∀ v : VState, ∀ c : Nat, roundV v c = iotaV (chiV (piRhoV (thetaV v))) c) := by
  refine ⟨rfl, rfl, fun s => rfl, fun s c rest => ?_, fun s c => rfl, fun v rc => rfl,
    fun v c => rfl⟩
  simp only [permutation, foldlML]

/-- C5 (amended: restricted to a rate that is a positive multiple of 8, as
in every instantiation the facade builds): the padding computed by
bytesToPad is at least 1 byte, and the message padded by padNist or pad101
has a bit length that is an exact multiple of the rate. -/
theorem C5_padding_arithmetic (rate : Nat) (m : List CV) (h8 : 8 ∣ rate)
    (hpos : 0 < rate) :
    1 ≤ bytesToPad rate m.length ∧
    (padNist m rate).length * 8 % rate = 0 ∧
    (pad101 m rate).length * 8 % rate = 0 := by
  have hk0 : 0 < rate / 8 := by
    obtain ⟨k, rfl⟩ := h8
    omega
  obtain ⟨hdvd, hmul, hposL⟩ := pad_facts rate m.length
    (m.length + bytesToPad rate m.length) hk0 h8 rfl
  refine ⟨?_, ?_, ?_⟩
  · rw [bytesToPad]
    have := Nat.mod_lt m.length hk0
    omega
  · rw [padNist_length]
    exact hmul
  · rw [pad101_length]
    exact hmul

/-- C5 counterexample: with rate 12 — not a multiple of 8 — the padded empty
message has 8 bits, not a multiple of 12; and with rate 0 and a 1-byte
message the computed padding length is 0, not at least 1. -/
theorem C5_counterexample :
    (padNist ([] : List CV) 12).length * 8 % 12 ≠ 0 ∧ bytesToPad 0 1 = 0 := by
  decide

/-- Witness for C5: the ethereum rate 1088. -/
theorem C5_padding_arithmetic_witness :
    ((8 : Nat) ∣ 1088 ∧ 0 < (1088 : Nat)) ∧
    (1 ≤ bytesToPad 1088 ([] : List CV).length ∧
      (padNist ([] : List CV) 1088).length * 8 % 1088 = 0 ∧
      (pad101 ([] : List CV) 1088).length * 8 % 1088 = 0) :=
  ⟨by decide, C5_padding_arithmetic 1088 [] (by decide) (by decide)⟩

/-- C6 (amended: for every rate of at least 8 — the region where the
embedding is faithful — the padding helpers perform no rate validation and
do not fail: they return the message followed by the computed padding even
when the rate is not a multiple of 8.  For a rate below 8 the source does
abort, but with a RangeError raised while building an array of NaN length,
not with a configuration error; that error path lies outside the model's
domain). -/
theorem C6_pads_no_rate_validation (m : List CV) (rate : Nat) (h8 : 8 ≤ rate) :
    (padNist m rate).length = m.length + bytesToPad rate m.length ∧
    (pad101 m rate).length = m.length + bytesToPad rate m.length ∧
    (padNist m rate).take m.length = m ∧
    (pad101 m rate).take m.length = m := by
  refine ⟨padNist_length m rate, pad101_length m rate, ?_, ?_⟩
  · simp only [padNist]
    exact List.take_left _ _
  · simp only [pad101]
    exact List.take_left _ _

/-- Witness for C6: rate 12, which is at least 8 but not a multiple of 8. -/
theorem C6_pads_no_rate_validation_witness :
    (8 ≤ 12) ∧
    ((padNist ([] : List CV) 12).length =
        ([] : List CV).length + bytesToPad 12 ([] : List CV).length ∧
      (pad101 ([] : List CV) 12).length =
        ([] : List CV).length + bytesToPad 12 ([] : List CV).length ∧
      (padNist ([] : List CV) 12).take ([] : List CV).length = [] ∧
      (pad101 ([] : List CV) 12).take ([] : List CV).length = []) :=
  ⟨by decide, C6_pads_no_rate_validation [] 12 (by decide)⟩

/-- C6 counterexample: rate 12 is not a positive multiple of 8, yet both
padding schemes return an ordinary padded message instead of failing with a
configuration error. -/
theorem C6_counterexample :
    ¬ (8 ∣ 12) ∧
    padNist ([] : List CV) 12 = [⟨134, []⟩] ∧
    pad101 ([] : List CV) 12 = [⟨129, []⟩] := by
  decide

/-- C7: an invalid capacity (nonpositive or at least 1600) or an invalid
output length (nonpositive or not a multiple of 8) makes the hash facade
abort with a configuration error, and the builder state is returned
untouched: no constraint has been built. -/
theorem C7_validation_before_constraints (ie oe : Endian) (bc : Bool) (msg : List CV)
    (len cap : Int) (nist : Bool) (st : BState)
    (hbad : cap ≤ 0 ∨ 1600 ≤ cap ∨ len ≤ 0 ∨ ¬ (8 : Int) ∣ len) :
    ∃ e, hash ie oe bc msg len cap nist st = (.error e, st) :=
  hash_invalid ie oe bc msg len cap nist st hbad

/-- Witness for C7: capacity 0. -/
theorem C7_validation_witness :
    ((0 : Int) ≤ 0 ∨ (1600 : Int) ≤ 0 ∨ (256 : Int) ≤ 0 ∨ ¬ (8 : Int) ∣ (256 : Int)) ∧
    ∃ e, hash .Big .Big false [] 256 0 false cleanBS = (.error e, cleanBS) :=
  ⟨Or.inl (by norm_num),
    C7_validation_before_constraints .Big .Big false [] 256 0 false cleanBS
      (Or.inl (by norm_num))⟩

/-- C8: for every message and every choice of endianness and byte-check
flags, preNist with output length 256 is exactly the ethereum
instantiation. -/
theorem C8_preNist256_eq_ethereum (ie oe : Endian) (bc : Bool) (msg : List CV) :
    preNist 256 msg ie oe bc = ethereum ie oe bc msg := rfl

set_option maxRecDepth 10000 in
/-- C9 (amended: the digest's hexadecimal encoding is
c5d2460186f7233c927e7db2dcc703c0e500b653ca82273b7bfad8045d85a470; the
spec's 63-character string drops the final 0): the ethereum variant applied
to the empty message returns the 32 bytes of that digest. -/
theorem C9_ethereum_empty_digest :
    SimW (ethereum .Big .Big false [])
      (fun out => bvals out = EMPTY_DIGEST ∧
        hexEncode EMPTY_DIGEST =
          "c5d2460186f7233c927e7db2dcc703c0e500b653ca82273b7bfad8045d85a470") := by
  show SimW (hash .Big .Big false [] 256 512 false) _
  refine (hash_run .Big .Big false [] 256 512 false (by norm_num) (by norm_num)
    (⟨64, by norm_num⟩) (by norm_num) (by norm_num)).monoW (fun out hout => ?_)
  refine ⟨?_, rfl⟩
  rw [hout]
  show hashV .Big .Big [] 256 512 false = EMPTY_DIGEST
  exact hashV_empty_eval

set_option maxRecDepth 10000 in
/-- C9 counterexample: the 63-hex-digit string of the claim is not the
hexadecimal encoding of the digest the run produces — its odd length 63
cannot even encode whole bytes. -/
theorem C9_counterexample :
    hexEncode (hashV .Big .Big [] 256 512 false) ≠
      "c5d2460186f7233c927e7db2dcc703c0e500b653ca82273b7bfad8045d85a47" ∧
    ("c5d2460186f7233c927e7db2dcc703c0e500b653ca82273b7bfad8045d85a47" : String).length
      = 63 := by
  refine ⟨?_, rfl⟩
  rw [hashV_empty_eval]
  decide

/-- C10: in every public variant (nistSha3 and preNist at the supported
output lengths 224, 256, 384 and 512, and ethereum) the output bit length
is below the rate 1600 - 2·len, so squeeze computes a single chunk
(squeezes = length/rate + 1 = 1), runs the permutation driver zero further
times, and the digest is the first len/8 bytes of the byte decomposition of
the post-absorb state. -/
theorem C10_single_squeeze (ie : Endian) (bc : Bool) (msg : List CV) :
    (∀ len ∈ ([224, 256, 384, 512] : List Nat),
      len / (KECCAK_STATE_LENGTH - 2 * len) + 1 = 1) ∧
    SimW (nistSha3 224 msg ie .Big bc) (fun out => bvals out =
      (stateToBytesV (absorbV (padNistV (fmtV ie (bvals msg)) 1152) 448 1152
        ROUND_CONSTANTS)).take 28) ∧
    SimW (nistSha3 256 msg ie .Big bc) (fun out => bvals out =
      (stateToBytesV (absorbV (padNistV (fmtV ie (bvals msg)) 1088) 512 1088
        ROUND_CONSTANTS)).take 32) ∧
    SimW (nistSha3 384 msg ie .Big bc) (fun out => bvals out =
      (stateToBytesV (absorbV (padNistV (fmtV ie (bvals msg)) 832) 768 832
        ROUND_CONSTANTS)).take 48) ∧
    SimW (nistSha3 512 msg ie .Big bc) (fun out => bvals out =
      (stateToBytesV (absorbV (padNistV (fmtV ie (bvals msg)) 576) 1024 576
        ROUND_CONSTANTS)).take 64) ∧
    SimW (preNist 224 msg ie .Big bc) (fun out => bvals out =
      (stateToBytesV (absorbV (pad101V (fmtV ie (bvals msg)) 1152) 448 1152
        ROUND_CONSTANTS)).take 28) ∧
    SimW (preNist 256 msg ie .Big bc) (fun out => bvals out =
      (stateToBytesV (absorbV (pad101V (fmtV ie (bvals msg)) 1088) 512 1088
        ROUND_CONSTANTS)).take 32) ∧
    SimW (preNist 384 msg ie .Big bc) (fun out => bvals out =
      (stateToBytesV (absorbV (pad101V (fmtV ie (bvals msg)) 832) 768 832
        ROUND_CONSTANTS)).take 48) ∧
    SimW (preNist 512 msg ie .Big bc) (fun out => bvals out =
      (stateToBytesV (absorbV (pad101V (fmtV ie (bvals msg)) 576) 1024 576
        ROUND_CONSTANTS)).take 64) ∧
    SimW (ethereum ie .Big bc msg) (fun out => bvals out =
      (stateToBytesV (absorbV (pad101V (fmtV ie (bvals msg)) 1088) 512 1088
        ROUND_CONSTANTS)).take 32) := by
  refine ⟨by decide, ?_, ?_, ?_, ?_, ?_, ?_, ?_, ?_, ?_⟩
  · show SimW (hash ie .Big bc msg 224 448 true) _
    exact (variant_digest ie bc msg 224 448 true (by norm_num) (by norm_num)
      ⟨56, by norm_num⟩ (by norm_num) (by norm_num) (by decide) (by decide)
      (by decide)).monoW (fun out hout => by rw [hout]; rfl)
  · show SimW (hash ie .Big bc msg 256 512 true) _
    exact (variant_digest ie bc msg 256 512 true (by norm_num) (by norm_num)
      ⟨64, by norm_num⟩ (by norm_num) (by norm_num) (by decide) (by decide)
      (by decide)).monoW (fun out hout => by rw [hout]; rfl)
  · show SimW (hash ie .Big bc msg 384 768 true) _
    exact (variant_digest ie bc msg 384 768 true (by norm_num) (by norm_num)
      ⟨96, by norm_num⟩ (by norm_num) (by norm_num) (by decide) (by decide)
      (by decide)).monoW (fun out hout => by rw [hout]; rfl)
  · show SimW (hash ie .Big bc msg 512 1024 true) _
    exact (variant_digest ie bc msg 512 1024 true (by norm_num) (by norm_num)
      ⟨128, by norm_num⟩ (by norm_num) (by norm_num) (by decide) (by decide)
      (by decide)).monoW (fun out hout => by rw [hout]; rfl)
  · show SimW (hash ie .Big bc msg 224 448 false) _
    exact (variant_digest ie bc msg 224 448 false (by norm_num) (by norm_num)
      ⟨56, by norm_num⟩ (by norm_num) (by norm_num) (by decide) (by decide)
      (by decide)).monoW (fun out hout => by rw [hout]; rfl)
  · show SimW (hash ie .Big bc msg 256 512 false) _
    exact (variant_digest ie bc msg 256 512 false (by norm_num) (by norm_num)
      ⟨64, by norm_num⟩ (by norm_num) (by norm_num) (by decide) (by decide)
      (by decide)).monoW (fun out hout => by rw [hout]; rfl)
  · show SimW (hash ie .Big bc msg 384 768 false) _
    exact (variant_digest ie bc msg 384 768 false (by norm_num) (by norm_num)
      ⟨96, by norm_num⟩ (by norm_num) (by norm_num) (by decide) (by decide)
      (by decide)).monoW (fun out hout => by rw [hout]; rfl)
  · show SimW (hash ie .Big bc msg 512 1024 false) _
    exact (variant_digest ie bc msg 512 1024 false (by norm_num) (by norm_num)
      ⟨128, by norm_num⟩ (by norm_num) (by norm_num) (by decide) (by decide)
      (by decide)).monoW (fun out hout => by rw [hout]; rfl)
  · show SimW (hash ie .Big bc msg 256 512 false) _
    exact (variant_digest ie bc msg 256 512 false (by norm_num) (by norm_num)
      ⟨64, by norm_num⟩ (by norm_num) (by norm_num) (by decide) (by decide)
      (by decide)).monoW (fun out hout => by rw [hout]; rfl)

end KeccakGadget
